import Mathlib

/-! # gm_8bit: `audio_effects.h`

A shallow embedding of `source/audio_effects.h` and the properties of its
sample transforms (`BitCrush`, `Desample`) and of its WAV capture writer
(`WAVHeader`, `VoiceRecorder`).

Conventions of the embedding

* A `uint16_t` / `uint32_t` value is a `Nat`; every place where the C++ code
  converts to a fixed width carries an explicit `% 2 ^ w`.
* An `int` is an `Int`; `/` and `%` on `int` are `Int.tdiv` and `Int.tmod`
  (C++ rounds the quotient toward zero).
* A buffer handed over as a pointer is a `List`; an access outside the list is
  undefined behaviour in C++ and ends the call with `Fault.outOfBounds`.
* `static uint16_t tempBuf[10 * 1024]` is process-wide state: it is passed in
  and handed back explicitly.
-/

namespace AudioEffects

/-! ## Desample -/

/-- Ways a call can end without producing a result. -/
inductive Fault where
  /-- an `assert` whose condition is false (the build keeps assertions) -/
  | assertFailed
  /-- integer division by zero -/
  | divideByZero
  /-- an array element outside its storage is read or written -/
  | outOfBounds
  deriving DecidableEq, Repr

deriving instance DecidableEq for Except

/-- Number of elements of `static uint16_t tempBuf[10 * 1024]`. -/
def TEMP_BUF_LEN : Nat := 10 * 1024

/-- The value of `sizeof(tempBuf)`: the size of the array in bytes. -/
def SIZEOF_TEMP_BUF : Nat := TEMP_BUF_LEN * 2

/-- The condition of `assert(samples / desampleRate + 1 <= sizeof(tempBuf))`.
The left side is an `int`, the right side a `size_t`, so the comparison is made
after converting the left side to the unsigned 64-bit type. -/
def desampleGuard (samples desampleRate : Int) : Bool :=
  decide (((samples.tdiv desampleRate + 1) % 2 ^ 64).toNat ≤ SIZEOF_TEMP_BUF)

/-- The `for (int i = 0; i < samples; i++)` loop of `Desample`, started at index
`i` with `remaining` iterations left:
`if (i % desampleRate == 0) continue; tempBuf[outIdx] = inBuffer[i]; outIdx++;`.
Returns the scratch buffer and `outIdx` at loop exit. -/
def desampleLoop (inBuffer : List Nat) (desampleRate : Int) :
    (remaining : Nat) → (i : Nat) → (tempBuf : List Nat) → (outIdx : Nat) →
    Except Fault (List Nat × Nat)
  | 0, _, tempBuf, outIdx => .ok (tempBuf, outIdx)
  | remaining + 1, i, tempBuf, outIdx =>
    if (i : Int).tmod desampleRate = 0 then
      desampleLoop inBuffer desampleRate remaining (i + 1) tempBuf outIdx
    else
      match inBuffer[i]? with
      | none => .error .outOfBounds
      | some x =>
        if outIdx < tempBuf.length then
          desampleLoop inBuffer desampleRate remaining (i + 1) (tempBuf.set outIdx x) (outIdx + 1)
        else
          .error .outOfBounds

/-- What `Desample` leaves behind: the caller's buffer, the caller's `samples`
(passed by reference) and the scratch buffer. -/
structure DesampleResult where
  inBuffer : List Nat
  samples : Int
  tempBuf : List Nat
  deriving DecidableEq, Repr

/-- Embeds `void Desample(uint16_t* inBuffer, int& samples, int desampleRate = 2)`.
After the loop, `std::memcpy(inBuffer, tempBuf, outIdx * 2)` overwrites the
first `outIdx` elements of `inBuffer`, and `samples = outIdx`. -/
def Desample (inBuffer : List Nat) (samples : Int) (desampleRate : Int)
    (tempBuf : List Nat) : Except Fault DesampleResult :=
  if desampleRate = 0 then .error .divideByZero
  else if !desampleGuard samples desampleRate then .error .assertFailed
  else
    match desampleLoop inBuffer desampleRate samples.toNat 0 tempBuf 0 with
    | .error e => .error e
    | .ok (tempBuf', outIdx) =>
      .ok { inBuffer := tempBuf'.take outIdx ++ inBuffer.drop outIdx
            samples := (outIdx : Int)
            tempBuf := tempBuf' }

/-- The zero-based indices below `n` that `Desample` keeps: those that are not a
multiple of `r`, in increasing order. -/
def keptIndices (r i n : Nat) : List Nat :=
  (List.range' i n).filter (fun j => j % r ≠ 0)


/-! ## WAVHeader -/

/-- The two bytes of a 16-bit value, least significant first. -/
def le16 (v : Nat) : List Nat := [v % 256, v / 256 % 256]

/-- The four bytes of a 32-bit value, least significant first. -/
def le32 (v : Nat) : List Nat :=
  [v % 256, v / 256 % 256, v / 65536 % 256, v / 16777216 % 256]

/-- Reads the 32-bit little-endian value at byte offset `off`. -/
def readLE32 (bytes : List Nat) (off : Nat) : Nat :=
  bytes.getD off 0 + 256 * bytes.getD (off + 1) 0 + 65536 * bytes.getD (off + 2) 0
    + 16777216 * bytes.getD (off + 3) 0

/-- A `char[4]` tag. -/
structure FourCC where
  c0 : Char
  c1 : Char
  c2 : Char
  c3 : Char
  deriving DecidableEq, Repr

def FourCC.bytes (t : FourCC) : List Nat := [t.c0.toNat, t.c1.toNat, t.c2.toNat, t.c3.toNat]

/-- Embeds `struct WAVHeader`, fields in declaration order. -/
structure WAVHeader where
  riff : FourCC
  chunkSize : Nat
  wave : FourCC
  fmt : FourCC
  fmtSize : Nat
  audioFormat : Nat
  numChannels : Nat
  sampleRate : Nat
  byteRate : Nat
  blockAlign : Nat
  bitsPerSample : Nat
  data : FourCC
  dataSize : Nat
  deriving DecidableEq, Repr

/-- Embeds `WAVHeader()`: the default member initialisers, then the constructor body
`byteRate = sampleRate * numChannels * bitsPerSample / 8;`
`blockAlign = numChannels * bitsPerSample / 8;`.
`chunkSize` and `dataSize` have no initialiser and are not assigned: they keep
whatever the storage held, given here as `chunkSize0` and `dataSize0`. -/
def WAVHeader.new (chunkSize0 dataSize0 : Nat) : WAVHeader :=
  let numChannels := 1
  let sampleRate := 24000
  let bitsPerSample := 16
  { riff := ⟨'R', 'I', 'F', 'F'⟩
    chunkSize := chunkSize0
    wave := ⟨'W', 'A', 'V', 'E'⟩
    fmt := ⟨'f', 'm', 't', ' '⟩
    fmtSize := 16
    audioFormat := 1
    numChannels := numChannels
    sampleRate := sampleRate
    byteRate := sampleRate * numChannels * bitsPerSample % 2 ^ 32 / 8
    blockAlign := numChannels * bitsPerSample / 8 % 2 ^ 16
    bitsPerSample := bitsPerSample
    data := ⟨'d', 'a', 't', 'a'⟩
    dataSize := dataSize0 }

/-- Embeds `void updateSizes(uint32_t audioDataSize)`:
`dataSize = audioDataSize; chunkSize = 36 + audioDataSize;` in `uint32_t`. -/
def WAVHeader.updateSizes (h : WAVHeader) (audioDataSize : Nat) : WAVHeader :=
  { h with dataSize := audioDataSize, chunkSize := (36 + audioDataSize) % 2 ^ 32 }

/-- The object representation `reinterpret_cast<const char*>(&header)` over
`sizeof(header)` bytes: every field sits at a multiple of its own size, so the
fields follow each other without padding; integers are little-endian. -/
def WAVHeader.bytes (h : WAVHeader) : List Nat :=
  h.riff.bytes ++ le32 h.chunkSize ++ h.wave.bytes ++ h.fmt.bytes ++ le32 h.fmtSize
    ++ le16 h.audioFormat ++ le16 h.numChannels ++ le32 h.sampleRate ++ le32 h.byteRate
    ++ le16 h.blockAlign ++ le16 h.bitsPerSample ++ h.data.bytes ++ le32 h.dataSize

/-- The value of `sizeof(WAVHeader)`. -/
def SIZEOF_WAVHEADER : Nat := 44

/-- The header invariant of the data model:
`byteRate = sampleRate * channels * bitsPerSample / 8` and
`blockAlign = channels * bitsPerSample / 8`. -/
def WAVHeader.derivedFieldsConsistent (h : WAVHeader) : Prop :=
  h.byteRate = h.sampleRate * h.numChannels * h.bitsPerSample / 8 ∧
  h.blockAlign = h.numChannels * h.bitsPerSample / 8

instance (h : WAVHeader) : Decidable h.derivedFieldsConsistent := by
  unfold WAVHeader.derivedFieldsConsistent
  infer_instance

/-! ## VoiceRecorder -/

/-- The files of the file system: path to contents (a list of bytes). -/
abbrev Disk := String → Option (List Nat)

/-- Contents of a file after `bytes` are written at offset `pos`. -/
def overwriteAt (content : List Nat) (pos : Nat) (bytes : List Nat) : List Nat :=
  content.take pos ++ List.replicate (pos - content.length) 0 ++ bytes
    ++ content.drop (pos + bytes.length)

/-- The part of a `std::ofstream` the recorder depends on: whether a file is
open, whether an error flag (`failbit` or `badbit`) is set, the path of the
open file and the put position. Bytes written reach the file at once (the
stream's own buffering is not modelled) and a write to an open stream without
error flag succeeds. -/
structure OfStream where
  isOpen : Bool
  fail : Bool
  path : String
  pos : Nat
  deriving DecidableEq, Repr

/-- Embeds `file.open(filename, std::ios::binary)`; `openOk` says whether the operating
system lets the file be created. An `ofstream` opens with truncation. Opening a
stream that is already open fails and sets `failbit`; a successful open clears
the error flags. -/
def OfStream.open (f : OfStream) (disk : Disk) (filename : String) (openOk : Bool) :
    OfStream × Disk :=
  if f.isOpen then ({ f with fail := true }, disk)
  else if openOk then
    ({ isOpen := true, fail := false, path := filename, pos := 0 },
      fun p => if p = filename then some [] else disk p)
  else ({ f with fail := true }, disk)

/-- Embeds `file.write(data, n)` for the `n` bytes `bytes`: nothing happens when an
error flag is set; otherwise the bytes go to the put position. -/
def OfStream.write (f : OfStream) (disk : Disk) (bytes : List Nat) : OfStream × Disk :=
  if f.fail then (f, disk)
  else if !f.isOpen then ({ f with fail := true }, disk)
  else
    ({ f with pos := f.pos + bytes.length },
      fun p => if p = f.path then some (overwriteAt ((disk p).getD []) f.pos bytes) else disk p)

/-- Embeds `file.seekp(0)`: no effect when an error flag is set. -/
def OfStream.seekp (f : OfStream) (pos : Nat) : OfStream :=
  if f.fail then f else { f with pos := pos }

/-- Embeds `file.close()`. -/
def OfStream.close (f : OfStream) : OfStream :=
  if f.isOpen then { f with isOpen := false } else { f with fail := true }

/-- The data members of `class VoiceRecorder`. -/
structure VoiceRecorder where
  file : OfStream
  header : WAVHeader
  samplesWritten : Nat
  filename : String
  deriving DecidableEq, Repr

/-- A default-constructed recorder: closed stream, `WAVHeader()` over storage
holding `chunkSize0` and `dataSize0`, `samplesWritten = 0`, empty file name. -/
def VoiceRecorder.new (chunkSize0 dataSize0 : Nat) : VoiceRecorder :=
  { file := { isOpen := false, fail := false, path := "", pos := 0 }
    header := WAVHeader.new chunkSize0 dataSize0
    samplesWritten := 0
    filename := "" }

/-- A recorder together with the file system it writes to. -/
structure World where
  recorder : VoiceRecorder
  disk : Disk

/-- What `startRecording` obtains from its surroundings: the local time printed
by `std::put_time(..., "%Y%m%d_%H%M%S")`, whether
`std::filesystem::create_directories` returns without throwing, and whether the
output file can be opened. -/
structure StartEnv where
  timestamp : String
  mkdirOk : Bool
  openOk : Bool
  deriving DecidableEq, Repr

/-- The file name built by `startRecording`:
`"garrysmod/recordings/user_" << userID << "_" << timestamp << ".wav"`. -/
def recordingPath (userID : Int) (timestamp : String) : String :=
  "garrysmod/recordings/user_" ++ toString userID ++ "_" ++ timestamp ++ ".wav"

/-- Embeds `bool startRecording(int userID)`. -/
def startRecording (w : World) (env : StartEnv) (userID : Int) : Bool × World :=
  let filename := recordingPath userID env.timestamp
  let rec1 := { w.recorder with filename := filename }
  if !env.mkdirOk then (false, { recorder := rec1, disk := w.disk })
  else
    let opened := rec1.file.open w.disk filename env.openOk
    if !opened.1.isOpen then (false, { recorder := { rec1 with file := opened.1 }, disk := opened.2 })
    else
      let written := opened.1.write opened.2 rec1.header.bytes
      (true, { recorder := { rec1 with file := written.1, samplesWritten := 0 }
               disk := written.2 })

/-- The object representation of an `int16_t`: two's complement, little-endian. -/
def int16Bytes (s : Int) : List Nat := le16 (s % 65536).toNat

/-- The bytes of the first `n` samples of a buffer. -/
def sampleBytes (samples : List Int) (n : Nat) : List Nat :=
  (samples.take n).flatMap int16Bytes

/-- Embeds `void writeAudioData(const int16_t* samples, int numSamples)`.
`samples` must hold at least `numSamples` elements. A negative `numSamples`
makes the byte count passed to `write` negative: no byte is inserted and the
stream reports the short write by setting `badbit`.
`samplesWritten += numSamples` is computed in `uint32_t`. -/
def writeAudioData (w : World) (samples : List Int) (numSamples : Int) : World :=
  if w.recorder.file.isOpen then
    let written :=
      if numSamples < 0 then
        (if w.recorder.file.fail then w.recorder.file else { w.recorder.file with fail := true },
          w.disk)
      else w.recorder.file.write w.disk (sampleBytes samples numSamples.toNat)
    { recorder := { w.recorder with
        file := written.1
        samplesWritten := (((w.recorder.samplesWritten : Int) + numSamples) % 2 ^ 32).toNat }
      disk := written.2 }
  else w

/-- Embeds `void stopRecording()`. The message printed to `std::cout` is left out. -/
def stopRecording (w : World) : World :=
  if w.recorder.file.isOpen then
    let audioDataSize := w.recorder.samplesWritten * 2 % 2 ^ 32
    let header := w.recorder.header.updateSizes audioDataSize
    let written := (w.recorder.file.seekp 0).write w.disk header.bytes
    { recorder := { w.recorder with
        header := header
        file := written.1.close
        samplesWritten := 0 }
      disk := written.2 }
  else w

/-- Embeds `bool isRecording() const`. -/
def isRecording (w : World) : Bool := w.recorder.file.isOpen

/-- Embeds `~VoiceRecorder()`: calls `stopRecording()`; the stream member is destroyed
afterwards, which closes nothing more. -/
def destroy (w : World) : World := stopRecording w

/-- A sequence of `writeAudioData` calls, each given as buffer and count. -/
def writeAll (w : World) (calls : List (List Int × Int)) : World :=
  calls.foldl (fun w c => writeAudioData w c.1 c.2) w

/-- Decodes consecutive byte pairs as little-endian two's complement 16-bit
values, the way a WAVE reader reads 16-bit PCM data. -/
def decodeInt16s : List Nat → List Int
  | lo :: hi :: rest =>
    (if lo + 256 * hi < 32768 then (lo + 256 * hi : Int) else (lo + 256 * hi : Int) - 65536)
      :: decodeInt16s rest
  | _ => []

/-- The state Recording, seen from outside: the stream is open on the
recorder's file without error flag, the file holds the 44 bytes `hdr` written
at the start followed by `data`, the put position is at the end of the file,
and the running counter is `n` reduced to `uint32_t`. -/
def RecordingInv (w : World) (hdr data : List Nat) (n : Nat) : Prop :=
  w.recorder.file.isOpen = true ∧ w.recorder.file.fail = false ∧
  w.recorder.file.path = w.recorder.filename ∧
  w.recorder.file.pos = 44 + data.length ∧ hdr.length = 44 ∧
  w.disk w.recorder.filename = some (hdr ++ data) ∧
  w.recorder.samplesWritten = n % 2 ^ 32

/-! ## BitCrush

`BitCrush` computes in `float`. A finite `float` is given by its exact value, a
rational number; an arithmetic operation yields the exact result rounded to
IEEE 754 binary32 (24 significant bits, least exponent -126, round to nearest,
ties to even). Every `float` result of `BitCrush` is converted to `uint16_t` at
once, and the conversion treats every value beyond the 32-bit integers alike,
infinities and NaN included, so results beyond the largest finite `float` need
no representation of their own. -/

/-- Nearest integer, ties to the even one. -/
def roundHalfEven (t : ℚ) : Int :=
  if t - ⌊t⌋ < 1 / 2 then ⌊t⌋
  else if 1 / 2 < t - ⌊t⌋ then ⌊t⌋ + 1
  else if ⌊t⌋ % 2 = 0 then ⌊t⌋ else ⌊t⌋ + 1

/-- The exponent of the unit in the last place of the binary32 number nearest
to `v`: 23 below the binary exponent of `v`, which is at least -126. -/
def f32UlpExponent (v : ℚ) : Int := max (Int.log 2 |v|) (-126) - 23

/-- Rounding of an exact result to binary32. -/
def roundF32 (v : ℚ) : ℚ :=
  roundHalfEven (v / 2 ^ f32UlpExponent v) * 2 ^ f32UlpExponent v

/-- The conversion `(uint16_t)f`: the fraction is discarded. C++ defines the
result only when the truncated value is a `uint16_t` value. The loop of
`BitCrush` has no exit, and outside that range the compiled code carries on
with a wrapped value; the embedding follows the code emitted for the x86
targets: `cvttss2si` converts to a signed 32-bit integer, giving `0x80000000`
when the truncated value is no such integer (also for an infinity or a NaN),
and the low 16 bits of that integer are stored. -/
def floatToUInt16 (f : ℚ) : Nat :=
  if -2147483649 < f ∧ f < 2147483648 then
    ((if 0 ≤ f then ⌊f⌋ else ⌈f⌉) % 65536).toNat
  else 0

/-- The body of the loop of `BitCrush` for the sample `x`:
`float f = (float)sampleBuffer[i]; f /= quant; sampleBuffer[i] = (uint16_t)f;`
`sampleBuffer[i] *= quant; sampleBuffer[i] *= gainFactor;`
where `s *= c` on a `uint16_t` is `s = (uint16_t)((float)s * c)`.
A division by zero yields an infinity or a NaN, which the conversion turns
into 0. The body has no exit: the result is always `.ok`. -/
def crushSample (x : Nat) (quant gainFactor : ℚ) : Except Fault Nat :=
  let s1 := if quant = 0 then 0 else floatToUInt16 (roundF32 (roundF32 (x : ℚ) / quant))
  let s2 := floatToUInt16 (roundF32 (roundF32 (s1 : ℚ) * quant))
  .ok (floatToUInt16 (roundF32 (roundF32 (s2 : ℚ) * gainFactor)))

/-- The `for (int i = 0; i < samples; i++)` loop of `BitCrush`, started at index
`i` with `remaining` iterations left. -/
def bitCrushLoop (quant gainFactor : ℚ) :
    (remaining : Nat) → (i : Nat) → (sampleBuffer : List Nat) → Except Fault (List Nat)
  | 0, _, sampleBuffer => .ok sampleBuffer
  | remaining + 1, i, sampleBuffer =>
    match sampleBuffer[i]? with
    | none => .error .outOfBounds
    | some x =>
      match crushSample x quant gainFactor with
      | .error e => .error e
      | .ok y => bitCrushLoop quant gainFactor remaining (i + 1) (sampleBuffer.set i y)

/-- Embeds `void BitCrush(uint16_t* sampleBuffer, int samples, float quant, float gainFactor)`;
`quant` and `gainFactor` are finite `float` values. -/
def BitCrush (sampleBuffer : List Nat) (samples : Int) (quant gainFactor : ℚ) :
    Except Fault (List Nat) :=
  bitCrushLoop quant gainFactor samples.toNat 0 sampleBuffer

/-! ## Layout, reachable states, signed samples -/

/-- The layout rule of the platform ABI for a standard-layout struct: the
members follow each other in declaration order, each at the first offset at or
after the end of its predecessor that is a multiple of its alignment. A member
is given as (size, alignment); the result lists the member offsets, starting
the search at `offset`. -/
def memberOffsets : List (Nat × Nat) → (offset : Nat) → List Nat
  | [], _ => []
  | (size, align) :: rest, offset =>
    ((offset + align - 1) / align * align)
      :: memberOffsets rest ((offset + align - 1) / align * align + size)

/-- Size and alignment of the members of `struct WAVHeader` in declaration
order: `char[4]` is (4, 1), `uint32_t` is (4, 4), `uint16_t` is (2, 2). -/
def WAVHEADER_MEMBERS : List (Nat × Nat) :=
  [(4, 1), (4, 4), (4, 1), (4, 1), (4, 4), (2, 2), (2, 2), (4, 4), (4, 4), (2, 2), (2, 2),
    (4, 1), (4, 4)]

/-- The recorder states that calls of the public member functions produce from
a default-constructed recorder, `startRecording` being called only while Idle
and `writeAudioData` with a count that is not negative and within its buffer. -/
inductive Reachable : World → Prop
  | fresh (chunkSize0 dataSize0 : Nat) (disk : Disk) :
      Reachable ⟨VoiceRecorder.new chunkSize0 dataSize0, disk⟩
  | start (w : World) (env : StartEnv) (userID : Int) :
      Reachable w → isRecording w = false → Reachable (startRecording w env userID).2
  | write (w : World) (samples : List Int) (numSamples : Int) :
      Reachable w → 0 ≤ numSamples → numSamples ≤ samples.length →
      Reachable (writeAudioData w samples numSamples)
  | stop (w : World) : Reachable w → Reachable (stopRecording w)

/-- The `uint16_t` that holds the bits of the `int16_t` value `s` (two's
complement): `BitCrush` receives the signed samples through a `uint16_t*`. -/
def int16Bits (s : Int) : Nat := (s % 65536).toNat

/-- The `int16_t` value of the bits `u` (two's complement). -/
def int16OfBits (u : Nat) : Int := if u < 32768 then (u : Int) else (u : Int) - 65536

/-- The number written by a list of decimal digit characters, most significant
first. -/
def decimalValue (digits : List Char) : Nat :=
  digits.foldl (fun acc c => 10 * acc + (c.toNat - 48)) 0

/-! ## Properties of Desample -/

theorem keptIndices_zero (r i : Nat) : keptIndices r i 0 = [] := rfl

theorem keptIndices_succ (r i k : Nat) :
    keptIndices r i (k + 1) =
      if i % r = 0 then keptIndices r (i + 1) k else i :: keptIndices r (i + 1) k := by
  unfold keptIndices
  rw [List.range'_succ, List.filter_cons]
  by_cases h : i % r = 0 <;> simp [h]

theorem tmod_natCast_eq_zero (i r : Nat) : (i : Int).tmod (r : Int) = 0 ↔ i % r = 0 := by
  rw [← Int.ofNat_tmod]
  exact Int.natCast_eq_zero

theorem desampleLoop_ok (inBuffer : List Nat) (r : Nat) :
    ∀ (k i : Nat) (tb : List Nat) (o : Nat),
      i + k ≤ inBuffer.length →
      o + (keptIndices r i k).length ≤ tb.length →
      ∃ tb', desampleLoop inBuffer (r : Int) k i tb o
            = .ok (tb', o + (keptIndices r i k).length) ∧
        tb'.length = tb.length ∧
        tb'.take (o + (keptIndices r i k).length)
          = tb.take o ++ (keptIndices r i k).map (fun j => inBuffer.getD j 0) ∧
        ∀ j, o + (keptIndices r i k).length ≤ j → tb'[j]? = tb[j]? := by
  intro k
  induction k with
  | zero =>
    intro i tb o _ _
    exact ⟨tb, by simp [desampleLoop, keptIndices_zero]⟩
  | succ k ih =>
    intro i tb o hi ho
    rw [keptIndices_succ] at ho ⊢
    by_cases h : i % r = 0
    · rw [if_pos h] at ho ⊢
      obtain ⟨tb', h1, h2, h3, h4⟩ := ih (i + 1) tb o (by omega) ho
      refine ⟨tb', ?_, h2, h3, h4⟩
      rw [desampleLoop, if_pos ((tmod_natCast_eq_zero i r).2 h)]
      exact h1
    · rw [if_neg h] at ho ⊢
      simp only [List.length_cons] at ho ⊢
      have hlt : i < inBuffer.length := by omega
      have hot : o < tb.length := by omega
      obtain ⟨tb', h1, h2, h3, h4⟩ := ih (i + 1) (tb.set o inBuffer[i]) (o + 1) (by omega)
        (by simp only [List.length_set]; omega)
      refine ⟨tb', ?_, ?_, ?_, ?_⟩
      · rw [desampleLoop, if_neg (fun hc => h ((tmod_natCast_eq_zero i r).1 hc))]
        simp only [List.getElem?_eq_getElem hlt, if_pos hot]
        rw [h1]
        congr 2
        omega
      · simpa using h2
      · have e : o + ((keptIndices r (i + 1) k).length + 1)
            = o + 1 + (keptIndices r (i + 1) k).length := by omega
        rw [e, h3]
        have hs : (tb.set o inBuffer[i]).take (o + 1) = tb.take o ++ [inBuffer[i]] := by
          rw [List.take_succ, List.set_take, List.set_eq_of_length_le (by simp)]
          simp [hot]
        rw [hs]
        simp [List.getD_eq_getElem?_getD, List.getElem?_eq_getElem hlt]
      · intro j hj
        rw [h4 j (by omega), List.getElem?_set_ne (by omega)]

theorem desampleLoop_overflow (inBuffer : List Nat) (r : Nat) :
    ∀ (k i : Nat) (tb : List Nat) (o : Nat),
      i + k ≤ inBuffer.length →
      o ≤ tb.length →
      tb.length < o + (keptIndices r i k).length →
      desampleLoop inBuffer (r : Int) k i tb o = .error .outOfBounds := by
  intro k
  induction k with
  | zero =>
    intro i tb o _ ho hlt
    simp [keptIndices_zero] at hlt
    omega
  | succ k ih =>
    intro i tb o hi ho hlt
    rw [keptIndices_succ] at hlt
    by_cases h : i % r = 0
    · rw [if_pos h] at hlt
      rw [desampleLoop, if_pos ((tmod_natCast_eq_zero i r).2 h)]
      exact ih (i + 1) tb o (by omega) ho hlt
    · rw [if_neg h] at hlt
      simp only [List.length_cons] at hlt
      have hlt' : i < inBuffer.length := by omega
      rw [desampleLoop, if_neg (fun hc => h ((tmod_natCast_eq_zero i r).1 hc))]
      simp only [List.getElem?_eq_getElem hlt']
      by_cases hot : o < tb.length
      · rw [if_pos hot]
        exact ih (i + 1) _ (o + 1) (by omega) (by simp only [List.length_set]; omega)
          (by simp only [List.length_set]; omega)
      · rw [if_neg hot]

theorem keptIndices_snoc (r i k : Nat) :
    keptIndices r i (k + 1) =
      keptIndices r i k ++ (if (i + k) % r = 0 then [] else [i + k]) := by
  unfold keptIndices
  rw [List.range'_concat, List.filter_append]
  by_cases h : (i + k) % r = 0 <;> simp [h]

theorem ceilDiv_succ (n r : Nat) (hr : 1 ≤ r) :
    (n + 1 + r - 1) / r = (n + r - 1) / r + (if n % r = 0 then 1 else 0) := by
  have hn := Nat.div_add_mod n r
  have hm := Nat.mod_lt n hr
  generalize n / r = q at hn
  generalize n % r = m at hn hm
  subst hn
  by_cases h : m = 0
  · subst h
    rw [if_pos rfl]
    have e1 : r * q + 0 + 1 + r - 1 = r + r * q := by omega
    have e2 : r * q + 0 + r - 1 = (r - 1) + r * q := by omega
    rw [e1, e2, Nat.add_mul_div_left _ _ hr, Nat.add_mul_div_left _ _ hr,
      Nat.div_self hr, Nat.div_eq_of_lt (by omega)]
    omega
  · rw [if_neg h]
    have e1 : r * q + m + 1 + r - 1 = (m + r) + r * q := by omega
    have e2 : r * q + m + r - 1 = (m - 1 + r) + r * q := by omega
    rw [e1, e2, Nat.add_mul_div_left _ _ hr, Nat.add_mul_div_left _ _ hr,
      Nat.add_div_right _ hr, Nat.add_div_right _ hr, Nat.div_eq_of_lt hm,
      Nat.div_eq_of_lt (by omega)]
    omega

theorem ceilDiv_le (n r : Nat) (hr : 1 ≤ r) : (n + r - 1) / r ≤ n := by
  induction n with
  | zero =>
    have : (0 + r - 1) / r = 0 := Nat.div_eq_of_lt (by omega)
    omega
  | succ n ih =>
    rw [ceilDiv_succ n r hr]
    split <;> omega

/-- The number of kept indices below `n` is `n - ⌈n / r⌉`. -/
theorem keptIndices_length (r n : Nat) (hr : 1 ≤ r) :
    (keptIndices r 0 n).length = n - (n + r - 1) / r := by
  induction n with
  | zero => simp [keptIndices_zero]
  | succ n ih =>
    rw [keptIndices_snoc, List.length_append, ih, ceilDiv_succ n r hr]
    have := ceilDiv_le n r hr
    simp only [Nat.zero_add]
    split
    · simp
    · simp only [List.length_singleton]
      omega

theorem keptIndices_length_le (r i n : Nat) : (keptIndices r i n).length ≤ n := by
  unfold keptIndices
  exact (List.length_filter_le _ _).trans (by simp)

theorem keptIndices_eq_range (r n : Nat) :
    keptIndices r 0 n = (List.range n).filter (fun j => j % r ≠ 0) := by
  unfold keptIndices
  rw [List.range_eq_range']

theorem desampleGuard_natCast (N r : Nat) (hN : N < 2 ^ 31) :
    desampleGuard (N : Int) (r : Int) = decide (N / r + 1 ≤ SIZEOF_TEMP_BUF) := by
  unfold desampleGuard
  rw [← Int.ofNat_tdiv]
  have hd : N / r ≤ N := Nat.div_le_self N r
  generalize N / r = d at hd
  have h1 : ((d : Int) + 1) % 2 ^ 64 = ((d + 1 : Nat) : Int) := by
    rw [Int.emod_eq_of_lt] <;> omega
  rw [h1, Int.toNat_ofNat]

theorem desampleGuard_of_le (N r : Nat) (hN : N ≤ TEMP_BUF_LEN) :
    desampleGuard (N : Int) (r : Int) = true := by
  have hd : N / r ≤ N := Nat.div_le_self N r
  unfold TEMP_BUF_LEN at hN
  rw [desampleGuard_natCast N r (by omega), decide_eq_true_eq]
  unfold SIZEOF_TEMP_BUF TEMP_BUF_LEN
  omega

theorem Desample_ok (inBuffer tempBuf : List Nat) (N r : Nat) (hr : 1 ≤ r)
    (hg : desampleGuard (N : Int) (r : Int) = true) (hN : N ≤ inBuffer.length)
    (hfit : (keptIndices r 0 N).length ≤ tempBuf.length) :
    ∃ tb', tb'.length = tempBuf.length ∧
      (∀ j, (keptIndices r 0 N).length ≤ j → tb'[j]? = tempBuf[j]?) ∧
      Desample inBuffer (N : Int) (r : Int) tempBuf = .ok
        { inBuffer := (keptIndices r 0 N).map (fun j => inBuffer.getD j 0)
            ++ inBuffer.drop (keptIndices r 0 N).length
          samples := ((keptIndices r 0 N).length : Int)
          tempBuf := tb' } := by
  obtain ⟨tb', h1, h2, h3, h4⟩ := desampleLoop_ok inBuffer r N 0 tempBuf 0 (by omega) (by omega)
  simp only [Nat.zero_add] at h4
  refine ⟨tb', h2, h4, ?_⟩
  have hr0 : (r : Int) ≠ 0 := by omega
  simp only [Nat.zero_add, List.take_zero, List.nil_append] at h1 h3
  simp only [Desample, if_neg hr0, hg, Int.toNat_ofNat, h1, h3]
  rfl

theorem Desample_overflow (inBuffer tempBuf : List Nat) (N r : Nat) (hr : 1 ≤ r)
    (hg : desampleGuard (N : Int) (r : Int) = true) (hN : N ≤ inBuffer.length)
    (hfit : tempBuf.length < (keptIndices r 0 N).length) :
    Desample inBuffer (N : Int) (r : Int) tempBuf = .error .outOfBounds := by
  have h := desampleLoop_overflow inBuffer r N 0 tempBuf 0 (by omega) (by omega) (by omega)
  have hr0 : (r : Int) ≠ 0 := by omega
  simp only [Desample, if_neg hr0, hg, Int.toNat_ofNat, h]
  rfl

/-! ### Rounding to binary32 -/

theorem roundHalfEven_intCast (m : Int) : roundHalfEven (m : ℚ) = m := by
  unfold roundHalfEven
  rw [Int.floor_intCast, sub_self, if_pos (by norm_num)]

theorem roundHalfEven_sub_le (t : ℚ) :
    (roundHalfEven t : ℚ) - t ≤ 1 / 2 ∧ t - (roundHalfEven t : ℚ) ≤ 1 / 2 := by
  have h1 := Int.floor_le t
  have h2 := Int.lt_floor_add_one t
  unfold roundHalfEven
  split_ifs with ha hb hc
  · constructor <;> linarith
  · push_cast
    constructor <;> linarith
  · constructor <;> linarith
  · push_cast
    constructor <;> linarith

theorem roundHalfEven_nonneg (t : ℚ) (h : 0 ≤ t) : 0 ≤ roundHalfEven t := by
  have h0 : 0 ≤ ⌊t⌋ := Int.floor_nonneg.2 h
  unfold roundHalfEven
  split_ifs <;> omega

theorem two_zpow_pos (e : Int) : (0 : ℚ) < 2 ^ e := zpow_pos (by norm_num) e

theorem roundF32_nonneg (v : ℚ) (h : 0 ≤ v) : 0 ≤ roundF32 v := by
  unfold roundF32
  have hp := two_zpow_pos (f32UlpExponent v)
  have := roundHalfEven_nonneg (v / 2 ^ f32UlpExponent v) (div_nonneg h hp.le)
  exact mul_nonneg (by exact_mod_cast this) hp.le

/-- The rounding error is at most half a unit in the last place. -/
theorem roundF32_sub_le (v : ℚ) :
    roundF32 v - v ≤ 2 ^ f32UlpExponent v / 2 ∧ v - roundF32 v ≤ 2 ^ f32UlpExponent v / 2 := by
  have hp := two_zpow_pos (f32UlpExponent v)
  obtain ⟨h1, h2⟩ := roundHalfEven_sub_le (v / 2 ^ f32UlpExponent v)
  have hv : v = v / 2 ^ f32UlpExponent v * 2 ^ f32UlpExponent v := by
    field_simp
  unfold roundF32
  constructor
  · nlinarith
  · nlinarith

/-- Integers below `2 ^ 24` are binary32 numbers: rounding leaves them alone. -/
theorem roundF32_natCast (n : Nat) (h : n < 2 ^ 24) : roundF32 (n : ℚ) = n := by
  rcases Nat.eq_zero_or_pos n with h0 | hpos
  · subst h0
    unfold roundF32
    simp [roundHalfEven]
  · have hL : Int.log 2 |(n : ℚ)| = (Nat.log 2 n : ℤ) := by
      rw [abs_of_nonneg (by positivity), Int.log_natCast]
    have hL23 : Nat.log 2 n < 24 := Nat.log_lt_of_lt_pow (by omega) h
    obtain ⟨d, hd⟩ : ∃ d : ℕ, (Nat.log 2 n : ℤ) - 23 = -(d : ℤ) :=
      ⟨23 - Nat.log 2 n, by omega⟩
    have hE : f32UlpExponent (n : ℚ) = -(d : ℤ) := by
      unfold f32UlpExponent
      rw [hL, max_eq_left (by omega), hd]
    unfold roundF32
    rw [hE, zpow_neg, zpow_natCast, div_inv_eq_mul]
    have hc : (n : ℚ) * 2 ^ d = ((n * 2 ^ d : ℕ) : ℤ) := by push_cast; ring
    rw [hc, roundHalfEven_intCast]
    push_cast
    field_simp

/-- Dividing an integer sample by an integer and discarding the fraction of the
rounded quotient gives the integer quotient: rounding never reaches the next
integer. -/
theorem floor_roundF32_div (x q : Nat) (hx : x < 2 ^ 16) (hq : 0 < q) :
    ⌊roundF32 ((x : ℚ) / q)⌋ = ((x / q : ℕ) : ℤ) := by
  have hqQ : (0 : ℚ) < q := by exact_mod_cast hq
  have hdm := Nat.div_add_mod x q
  have hml := Nat.mod_lt x hq
  have hkx : x / q ≤ x := Nat.div_le_self x q
  by_cases hm : x % q = 0
  · have hv : (x : ℚ) / q = ((x / q : ℕ) : ℚ) := by
      rw [div_eq_iff hqQ.ne']
      have : x = x / q * q := by rw [hm, Nat.add_zero, Nat.mul_comm] at hdm; exact hdm.symm
      exact_mod_cast this
    rw [hv, roundF32_natCast _ (by omega)]
    exact Int.floor_natCast _
  · rw [Int.floor_eq_iff, Int.cast_natCast]
    have hm0 : 1 ≤ x % q := Nat.one_le_iff_ne_zero.2 hm
    generalize x / q = K at hdm hkx ⊢
    generalize x % q = M at hdm hml hm0
    have hxQ : (x : ℚ) = q * K + M := by exact_mod_cast hdm.symm
    have hm1 : (1 : ℚ) ≤ M := by exact_mod_cast hm0
    have hm2 : (M : ℚ) + 1 ≤ q := by exact_mod_cast hml
    have hx16 : (x : ℚ) < 65536 := by exact_mod_cast hx
    have hk0 : (0 : ℚ) ≤ K := by positivity
    have hvpos : (0 : ℚ) < (x : ℚ) / q := by
      apply div_pos _ hqQ
      nlinarith
    -- the quotient lies strictly between two integers, at distance `1 / q` at least
    have hlo : (K : ℚ) + 1 / q ≤ (x : ℚ) / q := by
      rw [le_div_iff₀ hqQ, add_mul, one_div, inv_mul_cancel₀ hqQ.ne']
      nlinarith
    have hhi : (x : ℚ) / q ≤ K + 1 - 1 / q := by
      rw [div_le_iff₀ hqQ, sub_mul, one_div, inv_mul_cancel₀ hqQ.ne']
      nlinarith
    obtain ⟨e1, e2⟩ := roundF32_sub_le ((x : ℚ) / q)
    have hnn := roundF32_nonneg ((x : ℚ) / q) hvpos.le
    by_cases he : -126 ≤ Int.log 2 |(x : ℚ) / q|
    · -- normal range: half a unit in the last place is below `1 / q`
      have hE : f32UlpExponent ((x : ℚ) / q) = Int.log 2 |(x : ℚ) / q| - 23 := by
        unfold f32UlpExponent
        rw [max_eq_left he]
      have hpow : (2 : ℚ) ^ Int.log 2 |(x : ℚ) / q| ≤ (x : ℚ) / q := by
        have := Int.zpow_log_le_self (R := ℚ) (b := 2) (r := |(x : ℚ) / q|) (by norm_num)
          (abs_pos.2 hvpos.ne')
        rw [abs_of_pos hvpos] at this ⊢
        exact_mod_cast this
      rw [hE, zpow_sub₀ (by norm_num : (2 : ℚ) ≠ 0)] at e1 e2
      have h23 : (2 : ℚ) ^ (23 : ℤ) = 8388608 := by norm_num
      rw [h23] at e1 e2
      have hsmall : (x : ℚ) / q / 8388608 / 2 < 1 / q := by
        rw [div_div, div_div, div_lt_div_iff₀ (by positivity) hqQ]
        nlinarith
      have hhalf : (2 : ℚ) ^ Int.log 2 |(x : ℚ) / q| / 8388608 / 2 < 1 / q := by
        refine lt_of_le_of_lt ?_ hsmall
        linarith
      constructor <;> linarith
    · -- below the normal range the quotient is tiny
      have hE : f32UlpExponent ((x : ℚ) / q) = -149 := by
        unfold f32UlpExponent
        rw [max_eq_right (by omega)]
        norm_num
      have hlt : (x : ℚ) / q < (2 : ℚ) ^ (-126 : ℤ) := by
        have h1 := Int.lt_zpow_succ_log_self (R := ℚ) (b := 2) (by norm_num) |(x : ℚ) / q|
        have h2 : (2 : ℚ) ^ (Int.log 2 |(x : ℚ) / q| + 1) ≤ (2 : ℚ) ^ (-126 : ℤ) :=
          zpow_le_zpow_right₀ (by norm_num) (by omega)
        rw [abs_of_pos hvpos] at h1 h2
        have h1' : (x : ℚ) / q < (2 : ℚ) ^ (Int.log 2 ((x : ℚ) / q) + 1) := by exact_mod_cast h1
        exact lt_of_lt_of_le h1' h2
      rw [hE] at e1
      have h149 : (2 : ℚ) ^ (-149 : ℤ) < 1 / 2 := by norm_num
      have h126 : (2 : ℚ) ^ (-126 : ℤ) < 1 / 2 := by norm_num
      have hqinv : (0 : ℚ) < 1 / q := by positivity
      have hK : K = 0 := by
        by_contra hne
        have hk1 : (1 : ℚ) ≤ K := by exact_mod_cast Nat.one_le_iff_ne_zero.2 hne
        linarith
      subst hK
      constructor
      · simpa using hnn
      · push_cast
        linarith

/-! ### BitCrush on integer parameters -/

theorem floatToUInt16_of_floor (f : ℚ) (n : Nat) (hn : n < 65536) (hf : ⌊f⌋ = (n : ℤ)) :
    floatToUInt16 f = n := by
  have h1 := Int.floor_le f
  have h2 := Int.lt_floor_add_one f
  rw [hf] at h1 h2
  have hn' : (n : ℚ) + 1 ≤ 65536 := by exact_mod_cast hn
  have hn0 : (0 : ℚ) ≤ n := by positivity
  have h1' : (n : ℚ) ≤ f := by exact_mod_cast h1
  have h2' : f < (n : ℚ) + 1 := by exact_mod_cast h2
  unfold floatToUInt16
  rw [if_pos ⟨by linarith, by linarith⟩, if_pos (by linarith), hf]
  omega

theorem floatToUInt16_natCast (n : Nat) (hn : n < 65536) : floatToUInt16 (n : ℚ) = n :=
  floatToUInt16_of_floor _ n hn (Int.floor_natCast n)

/-- The loop body always returns. -/
theorem crushSample_ok (x : Nat) (quant gain : ℚ) :
    crushSample x quant gain = .ok ((crushSample x quant gain).toOption.getD 0) := rfl

/-- With integer `quant ≥ 1` and integer gain, a sample `x` is rewritten to
`x / quant * quant * gain` (integer division) when that value is a `uint16_t`. -/
theorem crushSample_natCast (x q g : Nat) (hx : x < 2 ^ 16) (hq : 0 < q)
    (hr : x / q * q * g < 2 ^ 16) :
    crushSample x (q : ℚ) (g : ℚ) = .ok (x / q * q * g) := by
  have hqQ : (q : ℚ) ≠ 0 := by exact_mod_cast hq.ne'
  have hK : x / q * q ≤ x := Nat.div_mul_le_self x q
  have hKx : x / q ≤ x := Nat.div_le_self x q
  have e2 : ((x / q : ℕ) : ℚ) * (q : ℚ) = ((x / q * q : ℕ) : ℚ) := by push_cast; ring
  have e3 : ((x / q * q : ℕ) : ℚ) * (g : ℚ) = ((x / q * q * g : ℕ) : ℚ) := by push_cast; ring
  have s1 : floatToUInt16 (roundF32 (roundF32 (x : ℚ) / q)) = x / q := by
    rw [roundF32_natCast x (by omega)]
    exact floatToUInt16_of_floor _ (x / q) (by omega) (floor_roundF32_div x q hx hq)
  have s2 : floatToUInt16 (roundF32 (roundF32 ((x / q : ℕ) : ℚ) * q)) = x / q * q := by
    rw [roundF32_natCast (x / q) (by omega), e2, roundF32_natCast (x / q * q) (by omega)]
    exact floatToUInt16_natCast _ (by omega)
  have s3 : floatToUInt16 (roundF32 (roundF32 ((x / q * q : ℕ) : ℚ) * g)) = x / q * q * g := by
    rw [roundF32_natCast (x / q * q) (by omega), e3, roundF32_natCast _ (by omega)]
    exact floatToUInt16_natCast _ (by omega)
  unfold crushSample
  simp only [if_neg hqQ, s1, s2, s3]

/-- The loop rewrites the entries `i, …, i + k - 1` one by one and nothing else. -/
theorem bitCrushLoop_pointwise (quant gain : ℚ) (f : Nat → Nat) :
    ∀ (k i : Nat) (buf : List Nat), i + k ≤ buf.length →
      (∀ j x, i ≤ j → j < i + k → buf[j]? = some x → crushSample x quant gain = .ok (f x)) →
      ∃ out, bitCrushLoop quant gain k i buf = .ok out ∧
        ∀ j, out[j]? = if i ≤ j ∧ j < i + k then buf[j]?.map f else buf[j]? := by
  intro k
  induction k with
  | zero =>
    intro i buf _ _
    refine ⟨buf, rfl, fun j => ?_⟩
    rw [if_neg (by omega)]
  | succ k ih =>
    intro i buf hi hc
    have hlt : i < buf.length := by omega
    have hx := hc i buf[i] (Nat.le_refl i) (by omega) (List.getElem?_eq_getElem hlt)
    obtain ⟨out, h1, h2⟩ := ih (i + 1) (buf.set i (f buf[i]))
      (by simp only [List.length_set]; omega)
      (fun j x hj1 hj2 hjx => hc j x (by omega) (by omega)
        (by rw [List.getElem?_set_ne (by omega)] at hjx; exact hjx))
    refine ⟨out, ?_, fun j => ?_⟩
    · rw [bitCrushLoop]
      simp only [List.getElem?_eq_getElem hlt, hx]
      exact h1
    · rw [h2 j]
      by_cases hji : j = i
      · subst hji
        rw [if_neg (by omega), if_pos (by omega), List.getElem?_set_self hlt,
          List.getElem?_eq_getElem hlt]
        rfl
      · rw [List.getElem?_set_ne (fun h => hji h.symm)]
        by_cases hr : i ≤ j ∧ j < i + (k + 1)
        · rw [if_pos hr, if_pos (by omega)]
        · rw [if_neg hr, if_neg (by omega)]

/-- Result of `BitCrush` when the loop body maps every processed sample `x` to `f x`. -/
theorem BitCrush_eq_map (buf : List Nat) (N : Nat) (quant gain : ℚ) (f : Nat → Nat)
    (hN : N ≤ buf.length)
    (hc : ∀ x ∈ buf.take N, crushSample x quant gain = .ok (f x)) :
    BitCrush buf (N : Int) quant gain = .ok ((buf.take N).map f ++ buf.drop N) := by
  obtain ⟨out, h1, h2⟩ := bitCrushLoop_pointwise quant gain f N 0 buf (by omega)
    (fun j x _ hj hjx => hc x (by
      rw [List.mem_iff_getElem?]
      exact ⟨j, by rw [List.getElem?_take_of_lt (by omega)]; exact hjx⟩))
  unfold BitCrush
  rw [Int.toNat_ofNat, h1]
  congr 1
  apply List.ext_getElem?
  intro j
  rw [h2 j]
  by_cases hj : j < N
  · rw [if_pos ⟨by omega, by omega⟩, List.getElem?_append_left (by simp; omega),
      List.getElem?_map, List.getElem?_take_of_lt hj]
  · rw [if_neg (by omega), List.getElem?_append_right (by simp; omega)]
    simp only [List.length_map, List.length_take, List.getElem?_drop]
    congr 1
    omega

/-! ### WAVHeader and VoiceRecorder -/

theorem WAVHeader.length_bytes (h : WAVHeader) : h.bytes.length = 44 := by
  simp [WAVHeader.bytes, FourCC.bytes, le32, le16]

theorem WAVHeader.new_byteRate (c d : Nat) : (WAVHeader.new c d).byteRate = 48000 := by
  simp [WAVHeader.new]

theorem WAVHeader.new_blockAlign (c d : Nat) : (WAVHeader.new c d).blockAlign = 2 := by
  simp [WAVHeader.new]

theorem WAVHeader.new_consistent (c d : Nat) : (WAVHeader.new c d).derivedFieldsConsistent := by
  unfold WAVHeader.derivedFieldsConsistent
  rw [WAVHeader.new_byteRate, WAVHeader.new_blockAlign]
  constructor
  · show 48000 = 24000 * 1 * 16 / 8
    decide
  · show 2 = 1 * 16 / 8
    decide

theorem getD_append_add (pre l : List Nat) (i : Nat) :
    (pre ++ l).getD (pre.length + i) 0 = l.getD i 0 := by
  rw [List.getD_eq_getElem?_getD, List.getD_eq_getElem?_getD,
    List.getElem?_append_right (by omega), Nat.add_sub_cancel_left]

theorem readLE32_le32 (v : Nat) (rest : List Nat) (pre : List Nat) :
    readLE32 (pre ++ le32 v ++ rest) pre.length = v % 2 ^ 32 := by
  unfold readLE32
  rw [List.append_assoc, getD_append_add, getD_append_add, getD_append_add]
  have h0 := getD_append_add pre (le32 v ++ rest) 0
  rw [Nat.add_zero] at h0
  rw [h0]
  simp only [le32, List.cons_append, List.getD_cons_zero, List.getD_cons_succ]
  omega

theorem WAVHeader.readLE32_dataSize (h : WAVHeader) (rest : List Nat) :
    readLE32 (h.bytes ++ rest) 40 = h.dataSize % 2 ^ 32 := by
  have := readLE32_le32 h.dataSize rest
    (h.riff.bytes ++ le32 h.chunkSize ++ h.wave.bytes ++ h.fmt.bytes ++ le32 h.fmtSize
      ++ le16 h.audioFormat ++ le16 h.numChannels ++ le32 h.sampleRate ++ le32 h.byteRate
      ++ le16 h.blockAlign ++ le16 h.bitsPerSample ++ h.data.bytes)
  simpa [WAVHeader.bytes, FourCC.bytes, le16] using this

theorem WAVHeader.readLE32_chunkSize (h : WAVHeader) (rest : List Nat) :
    readLE32 (h.bytes ++ rest) 4 = h.chunkSize % 2 ^ 32 := by
  have := readLE32_le32 h.chunkSize
    (h.wave.bytes ++ h.fmt.bytes ++ le32 h.fmtSize
      ++ le16 h.audioFormat ++ le16 h.numChannels ++ le32 h.sampleRate ++ le32 h.byteRate
      ++ le16 h.blockAlign ++ le16 h.bitsPerSample ++ h.data.bytes ++ le32 h.dataSize ++ rest)
    h.riff.bytes
  simpa [WAVHeader.bytes, FourCC.bytes, le16] using this

theorem overwriteAt_end (content bytes : List Nat) :
    overwriteAt content content.length bytes = content ++ bytes := by
  unfold overwriteAt
  simp

theorem overwriteAt_zero (hdr hdr' data : List Nat) (h : hdr'.length = hdr.length) :
    overwriteAt (hdr ++ data) 0 hdr' = hdr' ++ data := by
  unfold overwriteAt
  simp [h]

/-- A successful `startRecording` on an idle recorder enters Recording with the
bytes of the header member as the whole file. -/
theorem startRecording_ok (w : World) (env : StartEnv) (userID : Int)
    (hidle : isRecording w = false) (hstart : (startRecording w env userID).1 = true) :
    RecordingInv (startRecording w env userID).2 w.recorder.header.bytes [] 0 ∧
    (startRecording w env userID).2.recorder.filename = recordingPath userID env.timestamp ∧
    (startRecording w env userID).2.recorder.header = w.recorder.header := by
  obtain ⟨ts, mk, op⟩ := env
  unfold isRecording at hidle
  cases mk
  · simp [startRecording] at hstart
  · cases op
    · simp [startRecording, OfStream.open, hidle] at hstart
    · simp [startRecording, OfStream.open, OfStream.write, hidle, RecordingInv,
        WAVHeader.length_bytes, overwriteAt]

theorem writeAudioData_inv (w : World) (hdr data : List Nat) (n : Nat) (samples : List Int)
    (cnt : Int) (hcnt : 0 ≤ cnt) (h : RecordingInv w hdr data n) :
    RecordingInv (writeAudioData w samples cnt) hdr (data ++ sampleBytes samples cnt.toNat)
      (n + cnt.toNat) ∧
    (writeAudioData w samples cnt).recorder.filename = w.recorder.filename ∧
    (writeAudioData w samples cnt).recorder.header = w.recorder.header := by
  obtain ⟨h1, h2, h3, h4, h5, h6, h7⟩ := h
  have hneg : ¬ cnt < 0 := by omega
  have hpos : w.recorder.file.pos = (hdr ++ data).length := by
    rw [h4, List.length_append, h5]
  refine ⟨⟨?_, ?_, ?_, ?_, h5, ?_, ?_⟩, ?_, ?_⟩
  · simp [writeAudioData, h1, hneg, OfStream.write, h2]
  · simp [writeAudioData, h1, hneg, OfStream.write, h2]
  · simp [writeAudioData, h1, hneg, OfStream.write, h2, h3]
  · simp only [writeAudioData, h1, hneg, OfStream.write, h2, if_true, if_false, h4,
      List.length_append]
    simp
    omega
  · have hov : overwriteAt (hdr ++ data) w.recorder.file.pos
        (sampleBytes samples cnt.toNat) = hdr ++ (data ++ sampleBytes samples cnt.toNat) := by
      rw [hpos, overwriteAt_end, List.append_assoc]
    simp [writeAudioData, h1, hneg, OfStream.write, h2, h3, h6, hov]
  · simp only [writeAudioData, h1, if_true, h7]
    obtain ⟨c, rfl⟩ := Int.eq_ofNat_of_zero_le hcnt
    simp only [Int.toNat_ofNat]
    omega
  · simp [writeAudioData, h1]
  · simp [writeAudioData, h1]

theorem writeAll_cons (w : World) (c : List Int × Int) (cs : List (List Int × Int)) :
    writeAll w (c :: cs) = writeAll (writeAudioData w c.1 c.2) cs := rfl

theorem writeAll_inv (hdr : List Nat) :
    ∀ (calls : List (List Int × Int)) (w : World) (data : List Nat) (n : Nat),
      (∀ c ∈ calls, 0 ≤ c.2) → RecordingInv w hdr data n →
      RecordingInv (writeAll w calls) hdr
        (data ++ calls.flatMap (fun c => sampleBytes c.1 c.2.toNat))
        (n + (calls.map (fun c => c.2.toNat)).sum) ∧
      (writeAll w calls).recorder.filename = w.recorder.filename ∧
      (writeAll w calls).recorder.header = w.recorder.header := by
  intro calls
  induction calls with
  | nil =>
    intro w data n _ h
    simpa [writeAll] using h
  | cons c cs ih =>
    intro w data n hc h
    obtain ⟨s1, s2, s3⟩ := writeAudioData_inv w hdr data n c.1 c.2
      (hc c (List.mem_cons_self _ _)) h
    obtain ⟨t1, t2, t3⟩ := ih _ _ _ (fun d hd => hc d (List.mem_cons_of_mem _ hd)) s1
    rw [writeAll_cons]
    refine ⟨?_, t2.trans s2, t3.trans s3⟩
    simpa [List.flatMap_cons, List.append_assoc, Nat.add_assoc] using t1

theorem stopRecording_inv (w : World) (hdr data : List Nat) (n : Nat)
    (h : RecordingInv w hdr data n) :
    (stopRecording w).disk w.recorder.filename
      = some ((w.recorder.header.updateSizes
          (w.recorder.samplesWritten * 2 % 2 ^ 32)).bytes ++ data) ∧
    (stopRecording w).recorder.header
      = w.recorder.header.updateSizes (w.recorder.samplesWritten * 2 % 2 ^ 32) ∧
    (stopRecording w).recorder.filename = w.recorder.filename ∧
    isRecording (stopRecording w) = false ∧
    (stopRecording w).recorder.samplesWritten = 0 := by
  obtain ⟨h1, h2, h3, h4, h5, h6, _⟩ := h
  have hov := overwriteAt_zero hdr
    (w.recorder.header.updateSizes (w.recorder.samplesWritten * 2 % 2 ^ 32)).bytes data
    ((WAVHeader.length_bytes _).trans h5.symm)
  refine ⟨?_, ?_, ?_, ?_, ?_⟩
  · simp only [stopRecording, h1, OfStream.seekp, OfStream.write, h2, h3, h6, if_true,
      Bool.false_eq_true, if_false, Bool.not_true, Option.getD_some, hov]
  · simp [stopRecording, h1]
  · simp [stopRecording, h1]
  · simp [isRecording, stopRecording, h1, OfStream.seekp, OfStream.write, h2, OfStream.close]
  · simp [stopRecording, h1]

theorem sum_toNat_of_nonneg :
    ∀ (calls : List (List Int × Int)), (∀ c ∈ calls, 0 ≤ c.2) →
      (((calls.map (fun c => c.2.toNat)).sum : Nat) : Int) = (calls.map (fun c => c.2)).sum := by
  intro calls
  induction calls with
  | nil => intro _; rfl
  | cons c cs ih =>
    intro hc
    have h0 := hc c (List.mem_cons_self _ _)
    have := ih (fun d hd => hc d (List.mem_cons_of_mem _ hd))
    simp only [List.map_cons, List.sum_cons]
    rw [Nat.cast_add, this, Int.toNat_of_nonneg h0]

theorem decodeInt16s_int16Bytes (s : Int) (hs : -32768 ≤ s ∧ s ≤ 32767) (rest : List Nat) :
    decodeInt16s (int16Bytes s ++ rest) = s :: decodeInt16s rest := by
  unfold int16Bytes le16
  simp only [List.cons_append, List.nil_append, decodeInt16s]
  congr 1
  generalize hu : (s % 65536).toNat = u
  have hu' : (u : Int) = s % 65536 := by
    rw [← hu, Int.toNat_of_nonneg (Int.emod_nonneg _ (by decide))]
  split <;> omega

theorem decodeInt16s_flatMap (l : List Int) (h : ∀ s ∈ l, -32768 ≤ s ∧ s ≤ 32767) :
    decodeInt16s (l.flatMap int16Bytes) = l := by
  induction l with
  | nil => rfl
  | cons s l ih =>
    rw [List.flatMap_cons, decodeInt16s_int16Bytes s (h s (List.mem_cons_self _ _)),
      ih (fun t ht => h t (List.mem_cons_of_mem _ ht))]

theorem length_flatMap_int16Bytes (l : List Int) : (l.flatMap int16Bytes).length = 2 * l.length := by
  induction l with
  | nil => rfl
  | cons s l ih =>
    rw [List.flatMap_cons, List.length_append, ih, List.length_cons]
    simp only [int16Bytes, le16, List.length_cons, List.length_nil]
    omega

theorem flatMap_sampleBytes (calls : List (List Int × Int)) :
    calls.flatMap (fun c => sampleBytes c.1 c.2.toNat)
      = (calls.flatMap (fun c => c.1.take c.2.toNat)).flatMap int16Bytes := by
  induction calls with
  | nil => rfl
  | cons c cs ih =>
    rw [List.flatMap_cons, List.flatMap_cons, List.flatMap_append, ih]
    rfl

/-! ### Recorder state machine -/

theorem isRecording_stopRecording (w : World) : isRecording (stopRecording w) = false := by
  unfold isRecording stopRecording
  by_cases h : w.recorder.file.isOpen = true
  · by_cases hf : w.recorder.file.fail = true <;>
      simp [h, hf, OfStream.seekp, OfStream.write, OfStream.close]
  · simp [h]

theorem stopRecording_of_idle (w : World) (h : isRecording w = false) : stopRecording w = w := by
  unfold isRecording at h
  simp [stopRecording, h]

theorem startRecording_fst (w : World) (env : StartEnv) (userID : Int)
    (hidle : isRecording w = false) :
    (startRecording w env userID).1 = (env.mkdirOk && env.openOk) := by
  obtain ⟨ts, mk, op⟩ := env
  unfold isRecording at hidle
  cases mk <;> cases op <;> simp [startRecording, OfStream.open, hidle]

theorem isRecording_startRecording (w : World) (env : StartEnv) (userID : Int)
    (hidle : isRecording w = false) :
    isRecording (startRecording w env userID).2 = (env.mkdirOk && env.openOk) := by
  obtain ⟨ts, mk, op⟩ := env
  unfold isRecording at hidle ⊢
  cases mk <;> cases op <;> simp [startRecording, OfStream.open, OfStream.write, hidle]

theorem startRecording_header (w : World) (env : StartEnv) (userID : Int) :
    (startRecording w env userID).2.recorder.header = w.recorder.header := by
  unfold startRecording
  dsimp only
  split_ifs <;> rfl

theorem startRecording_filename (w : World) (env : StartEnv) (userID : Int) :
    (startRecording w env userID).2.recorder.filename = recordingPath userID env.timestamp := by
  unfold startRecording
  dsimp only
  split_ifs <;> rfl

theorem writeAudioData_header (w : World) (samples : List Int) (n : Int) :
    (writeAudioData w samples n).recorder.header = w.recorder.header := by
  unfold writeAudioData
  dsimp only
  split_ifs <;> rfl

theorem WAVHeader.updateSizes_new (c d a : Nat) :
    (WAVHeader.new c d).updateSizes a = WAVHeader.new ((36 + a) % 2 ^ 32) a := rfl

theorem stopRecording_header (w : World) :
    (stopRecording w).recorder.header
      = if isRecording w then
          w.recorder.header.updateSizes (w.recorder.samplesWritten * 2 % 2 ^ 32)
        else w.recorder.header := by
  unfold stopRecording isRecording
  dsimp only
  split_ifs <;> rfl

/-- The header member of a reachable recorder is a `WAVHeader()` whose two size
fields may have been assigned. -/
theorem Reachable.header_eq_new {w : World} (h : Reachable w) :
    ∃ c d, w.recorder.header = WAVHeader.new c d := by
  induction h with
  | fresh c d disk => exact ⟨c, d, rfl⟩
  | start w env userID _ _ ih => rw [startRecording_header]; exact ih
  | write w samples n _ _ _ ih => rw [writeAudioData_header]; exact ih
  | stop w _ ih =>
    obtain ⟨c, d, hcd⟩ := ih
    rw [stopRecording_header, hcd]
    split_ifs
    · exact ⟨_, _, WAVHeader.updateSizes_new c d _⟩
    · exact ⟨c, d, rfl⟩

theorem WAVHeader.new_bytes (c d : Nat) :
    (WAVHeader.new c d).bytes
      = [82, 73, 70, 70] ++ le32 c ++ [87, 65, 86, 69] ++ [102, 109, 116, 32] ++ le32 16
        ++ le16 1 ++ le16 1 ++ le32 24000 ++ le32 48000 ++ le16 2 ++ le16 16
        ++ [100, 97, 116, 97] ++ le32 d := by
  unfold WAVHeader.bytes
  rw [WAVHeader.new_byteRate, WAVHeader.new_blockAlign]
  rfl

/-! ### Signed samples -/

theorem int16Bits_lt (s : Int) : int16Bits s < 65536 := by
  unfold int16Bits
  omega

/-- Quantising the bits of a signed sample with a power of two that divides
`2 ^ 15` and reading the result as signed gives the floor multiple. -/
theorem int16OfBits_quantised (k : Nat) (hk : k ≤ 15) (s : Int)
    (hs : -32768 ≤ s ∧ s ≤ 32767) :
    int16OfBits (int16Bits s / 2 ^ k * 2 ^ k * 1) = 2 ^ k * (s / 2 ^ k) ∧
    (2 : Int) ^ k * (s / 2 ^ k) ≤ s := by
  unfold int16OfBits int16Bits
  generalize hu : (s % 65536).toNat = u
  have hu' : (u : Int) = s % 65536 := by
    rw [← hu, Int.toNat_of_nonneg (Int.emod_nonneg _ (by decide))]
  interval_cases k <;> simp only [Nat.reducePow, Int.reducePow] <;>
    (constructor
     · split <;> push_cast <;> omega
     · omega)

/-! ### Decimal printing and file names -/

theorem digitChar_decimal (m : Nat) (hm : m < 10) :
    Nat.digitChar m ≠ '_' ∧ Nat.digitChar m ≠ '-' ∧ (Nat.digitChar m).toNat - 48 = m := by
  interval_cases m <;> decide

theorem toDigitsCore_append (fuel : Nat) :
    ∀ (n : Nat) (ds : List Char),
      Nat.toDigitsCore 10 fuel n ds = Nat.toDigitsCore 10 fuel n [] ++ ds := by
  induction fuel with
  | zero => intro n ds; rfl
  | succ fuel ih =>
    intro n ds
    unfold Nat.toDigitsCore
    dsimp only
    split_ifs
    · rfl
    · rw [ih (n / 10) (Nat.digitChar (n % 10) :: ds), ih (n / 10) [Nat.digitChar (n % 10)],
        List.append_assoc]
      rfl

theorem decimalValue_snoc (l : List Char) (c : Char) :
    decimalValue (l ++ [c]) = 10 * decimalValue l + (c.toNat - 48) := by
  unfold decimalValue
  rw [List.foldl_append]
  rfl

theorem decimalValue_toDigitsCore (fuel : Nat) :
    ∀ n, n < fuel → decimalValue (Nat.toDigitsCore 10 fuel n []) = n := by
  induction fuel with
  | zero => intro n hn; omega
  | succ fuel ih =>
    intro n hn
    have hd := (digitChar_decimal (n % 10) (Nat.mod_lt n (by decide))).2.2
    unfold Nat.toDigitsCore
    dsimp only
    split_ifs with h0
    · have : decimalValue [Nat.digitChar (n % 10)] = 10 * 0 + ((Nat.digitChar (n % 10)).toNat - 48) :=
        rfl
      rw [this, hd]
      omega
    · rw [toDigitsCore_append, decimalValue_snoc, ih (n / 10) (by omega), hd]
      omega

theorem toDigitsCore_chars (fuel : Nat) :
    ∀ n, ∀ c ∈ Nat.toDigitsCore 10 fuel n [], c ≠ '_' ∧ c ≠ '-' := by
  induction fuel with
  | zero => intro n c hc; simp [Nat.toDigitsCore] at hc
  | succ fuel ih =>
    intro n c hc
    have hd := digitChar_decimal (n % 10) (Nat.mod_lt n (by decide))
    unfold Nat.toDigitsCore at hc
    dsimp only at hc
    split_ifs at hc with h0
    · rw [List.mem_singleton] at hc
      rw [hc]
      exact ⟨hd.1, hd.2.1⟩
    · rw [toDigitsCore_append, List.mem_append, List.mem_singleton] at hc
      rcases hc with hc | hc
      · exact ih _ c hc
      · rw [hc]
        exact ⟨hd.1, hd.2.1⟩

theorem toDigits_injective (a b : Nat) (h : Nat.toDigits 10 a = Nat.toDigits 10 b) : a = b := by
  have ha := decimalValue_toDigitsCore (a + 1) a (Nat.lt_succ_self a)
  have hb := decimalValue_toDigitsCore (b + 1) b (Nat.lt_succ_self b)
  unfold Nat.toDigits at h
  rw [h] at ha
  exact ha.symm.trans hb

/-- The decimal text of an `int`, as a list of characters. -/
theorem toString_int_data (u : Int) :
    (toString u).data
      = match u with
        | Int.ofNat m => Nat.toDigits 10 m
        | Int.negSucc m => '-' :: Nat.toDigits 10 (m + 1) := by
  cases u <;> rfl

theorem toString_int_no_underscore (u : Int) : '_' ∉ (toString u).data := by
  rw [toString_int_data]
  intro hc
  cases u with
  | ofNat m => exact (toDigitsCore_chars _ _ _ hc).1 rfl
  | negSucc m =>
    rcases List.mem_cons.1 hc with h | h
    · exact absurd h (by decide)
    · exact (toDigitsCore_chars _ _ _ h).1 rfl

theorem toString_int_injective (a b : Int) (h : (toString a).data = (toString b).data) :
    a = b := by
  rw [toString_int_data, toString_int_data] at h
  cases a with
  | ofNat m =>
    cases b with
    | ofNat k => rw [toDigits_injective m k h]
    | negSucc k =>
      have hmem : '-' ∈ Nat.toDigits 10 m := by
        have : '-' ∈ '-' :: Nat.toDigits 10 (k + 1) := List.mem_cons_self _ _
        exact (show Nat.toDigits 10 m = '-' :: Nat.toDigits 10 (k + 1) from h) ▸ this
      exact absurd rfl (toDigitsCore_chars _ _ _ hmem).2
  | negSucc m =>
    cases b with
    | ofNat k =>
      have hmem : '-' ∈ Nat.toDigits 10 k := by
        have : '-' ∈ '-' :: Nat.toDigits 10 (m + 1) := List.mem_cons_self _ _
        exact (show '-' :: Nat.toDigits 10 (m + 1) = Nat.toDigits 10 k from h) ▸ this
      exact absurd rfl (toDigitsCore_chars _ _ _ hmem).2
    | negSucc k =>
      have h' : Nat.toDigits 10 (m + 1) = Nat.toDigits 10 (k + 1) := (List.cons.inj h).2
      have := toDigits_injective _ _ h'
      rw [Nat.succ.inj this]

/-- Two texts that are cut at their first separator agree part by part. -/
theorem append_separator_inj (c : Char) :
    ∀ (l1 l2 r1 r2 : List Char), c ∉ l1 → c ∉ l2 →
      l1 ++ c :: r1 = l2 ++ c :: r2 → l1 = l2 ∧ r1 = r2 := by
  intro l1
  induction l1 with
  | nil =>
    intro l2 r1 r2 _ h2 h
    cases l2 with
    | nil => exact ⟨rfl, (List.cons.inj h).2⟩
    | cons x xs =>
      have : c = x := (List.cons.inj h).1
      exact absurd (this ▸ List.mem_cons_self _ _) h2
  | cons y ys ih =>
    intro l2 r1 r2 h1 h2 h
    cases l2 with
    | nil =>
      have : y = c := (List.cons.inj h).1
      exact absurd (this ▸ List.mem_cons_self _ _) h1
    | cons x xs =>
      obtain ⟨hxy, hrest⟩ := List.cons.inj h
      obtain ⟨e1, e2⟩ := ih xs r1 r2 (fun hc => h1 (List.mem_cons_of_mem _ hc))
        (fun hc => h2 (List.mem_cons_of_mem _ hc)) hrest
      exact ⟨by rw [hxy, e1], e2⟩

theorem recordingPath_data (u : Int) (ts : String) :
    (recordingPath u ts).data
      = "garrysmod/recordings/user_".data
        ++ ((toString u).data ++ '_' :: (ts.data ++ ".wav".data)) := by
  unfold recordingPath
  simp only [String.data_append, List.append_assoc]
  rfl

theorem recordingPath_inj (a b : Int) (s t : String)
    (h : recordingPath a s = recordingPath b t) : a = b ∧ s = t := by
  have hd := congrArg String.data h
  rw [recordingPath_data, recordingPath_data] at hd
  obtain ⟨e1, e2⟩ := append_separator_inj '_' _ _ _ _ (toString_int_no_underscore a)
    (toString_int_no_underscore b) (List.append_cancel_left hd)
  exact ⟨toString_int_injective a b e1, String.ext (List.append_cancel_right e2)⟩

/-! ## The claims -/

/-- C1: Desample keeps exactly the non-multiples. For a buffer holding `N`
samples, `N` at most the capacity of the scratch buffer, and `desampleRate = r`
with `r ≥ 1`, `Desample` returns; the new `samples` is the number of indices
`i < N` with `i % r ≠ 0`, the first `samples` entries of the buffer are the
input samples at exactly those indices in increasing order, and the entries
behind them are untouched. -/
theorem Desample_keeps_non_multiples (inBuffer tempBuf : List Nat) (N r : Nat)
    (hr : 1 ≤ r) (hN : N ≤ inBuffer.length) (hfit : N ≤ TEMP_BUF_LEN)
    (htb : tempBuf.length = TEMP_BUF_LEN) :
    ∃ res, Desample inBuffer (N : Int) (r : Int) tempBuf = .ok res ∧
      res.samples = (((List.range N).filter (fun i => i % r ≠ 0)).length : Int) ∧
      res.inBuffer.take res.samples.toNat
        = ((List.range N).filter (fun i => i % r ≠ 0)).map (fun i => inBuffer.getD i 0) ∧
      res.inBuffer.drop res.samples.toNat = inBuffer.drop res.samples.toNat := by
  have hlen := keptIndices_length_le r 0 N
  obtain ⟨tb', _, _, h⟩ := Desample_ok inBuffer tempBuf N r hr (desampleGuard_of_le N r hfit) hN
    (by omega)
  rw [keptIndices_eq_range] at h hlen
  refine ⟨_, h, rfl, ?_, ?_⟩
  · simp only [Int.toNat_ofNat]
    rw [List.take_left' (by simp)]
  · simp only [Int.toNat_ofNat]
    rw [List.drop_left' (by simp)]

/-- C1, on the examples of the specification: rate 2 on `[a,b,c,d,e]` gives
`[b,d]` with `samples = 2`, and on `[a,b,c,d]` gives `[b,d]`. -/
theorem Desample_keeps_non_multiples_witness :
    (∃ res, Desample [10, 20, 30, 40, 50] 5 2 (List.replicate TEMP_BUF_LEN 0) = .ok res ∧
      res.samples = 2 ∧ res.inBuffer.take 2 = [20, 40]) ∧
    (∃ res, Desample [10, 20, 30, 40] 4 2 (List.replicate TEMP_BUF_LEN 0) = .ok res ∧
      res.samples = 2 ∧ res.inBuffer.take 2 = [20, 40]) := by
  constructor
  · obtain ⟨res, h1, h2, h3, _⟩ := Desample_keeps_non_multiples [10, 20, 30, 40, 50]
      (List.replicate TEMP_BUF_LEN 0) 5 2 (by decide) (by decide) (by decide)
      (List.length_replicate _ _)
    have e : (List.range 5).filter (fun i => i % 2 ≠ 0) = [1, 3] := by decide
    rw [e] at h2 h3
    rw [h2] at h3
    exact ⟨res, h1, h2, h3⟩
  · obtain ⟨res, h1, h2, h3, _⟩ := Desample_keeps_non_multiples [10, 20, 30, 40]
      (List.replicate TEMP_BUF_LEN 0) 4 2 (by decide) (by decide) (by decide)
      (List.length_replicate _ _)
    have e : (List.range 4).filter (fun i => i % 2 ≠ 0) = [1, 3] := by decide
    rw [e] at h2 h3
    rw [h2] at h3
    exact ⟨res, h1, h2, h3⟩

/-- C2: the capacity guard does not bound the output. With 20482 samples and
the default rate 2 the assertion `samples / desampleRate + 1 <= sizeof(tempBuf)`
holds (10242 ≤ 20480 bytes), 10241 samples are kept, and the copy loop writes
`tempBuf[10240]`, one past the last element of the 10240-element array. -/
theorem Desample_guard_passes_on_overrun :
    desampleGuard 20482 2 = true ∧
    TEMP_BUF_LEN < ((List.range 20482).filter (fun i => i % 2 ≠ 0)).length ∧
    Desample (List.replicate 20482 0) 20482 2 (List.replicate TEMP_BUF_LEN 0)
      = .error .outOfBounds := by
  have hk : (keptIndices 2 0 20482).length = 10241 := by
    rw [keptIndices_length 2 20482 (by decide)]
  have hg : desampleGuard ((20482 : Nat) : Int) ((2 : Nat) : Int) = true := by
    rw [desampleGuard_natCast 20482 2 (by decide)]
    decide
  refine ⟨hg, ?_, ?_⟩
  · rw [← keptIndices_eq_range, hk]
    decide
  · exact Desample_overflow (List.replicate 20482 0) (List.replicate TEMP_BUF_LEN 0) 20482 2
      (by decide) hg (by rw [List.length_replicate])
      (by rw [hk, List.length_replicate]; decide)

/-- C3: oversized input is not rejected. With assertions compiled in, 10241
samples at rate 2 exceed the 10240-element scratch buffer, yet the guard holds,
the copy loop runs and `Desample` returns 5120 samples; and 30000 samples at
rate 2 pass the guard as well (15001 ≤ 20480, the array size in bytes), the copy
loop runs and writes past the end of `tempBuf`: the call does not end with the
failed assertion. -/
theorem Desample_oversized_input_not_rejected :
    TEMP_BUF_LEN < 10241 ∧ desampleGuard 10241 2 = true ∧
    (∃ res, Desample (List.replicate 10241 0) 10241 2 (List.replicate TEMP_BUF_LEN 0)
        = .ok res ∧ res.samples = 5120) ∧
    TEMP_BUF_LEN < 30000 ∧ desampleGuard 30000 2 = true ∧
    Desample (List.replicate 30000 0) 30000 2 (List.replicate TEMP_BUF_LEN 0)
      = .error .outOfBounds ∧
    Desample (List.replicate 30000 0) 30000 2 (List.replicate TEMP_BUF_LEN 0)
      ≠ .error .assertFailed := by
  have hk : (keptIndices 2 0 10241).length = 5120 := by
    rw [keptIndices_length 2 10241 (by decide)]
  have hg : desampleGuard ((10241 : Nat) : Int) ((2 : Nat) : Int) = true := by
    rw [desampleGuard_natCast 10241 2 (by decide)]
    decide
  have hk' : (keptIndices 2 0 30000).length = 15000 := by
    rw [keptIndices_length 2 30000 (by decide)]
  have hg' : desampleGuard ((30000 : Nat) : Int) ((2 : Nat) : Int) = true := by
    rw [desampleGuard_natCast 30000 2 (by decide)]
    decide
  have hover : Desample (List.replicate 30000 0) ((30000 : Nat) : Int) ((2 : Nat) : Int)
      (List.replicate TEMP_BUF_LEN 0) = .error .outOfBounds :=
    Desample_overflow (List.replicate 30000 0) (List.replicate TEMP_BUF_LEN 0) 30000 2
      (by decide) hg' (by rw [List.length_replicate])
      (by rw [hk', List.length_replicate]; decide)
  obtain ⟨tb', _, _, h⟩ := Desample_ok (List.replicate 10241 0) (List.replicate TEMP_BUF_LEN 0)
    10241 2 (by decide) hg (by rw [List.length_replicate])
    (by rw [hk, List.length_replicate]; decide)
  refine ⟨by decide, hg, ⟨_, h, by rw [hk]; rfl⟩, by decide, hg', hover, ?_⟩
  intro hc
  have := hover.symm.trans hc
  exact absurd this (by decide)

/-- C4: Desample is safe up to and including the capacity boundary. For
`0 ≤ N ≤ 10 * 1024` samples and `desampleRate ≥ 1` the guard holds and
`Desample` returns without a fault, so no access left the 10240 elements of
`tempBuf` (whose length is unchanged); only indices below the new `samples` are
written: `tempBuf` is as before from index `samples` on, and the new `samples`
is at most the capacity and at most `N`. -/
theorem Desample_safe_up_to_capacity (inBuffer tempBuf : List Nat) (N r : Nat)
    (hr : 1 ≤ r) (hN : N ≤ inBuffer.length) (hcap : N ≤ TEMP_BUF_LEN)
    (htb : tempBuf.length = TEMP_BUF_LEN) :
    desampleGuard (N : Int) (r : Int) = true ∧
    ∃ res, Desample inBuffer (N : Int) (r : Int) tempBuf = .ok res ∧
      0 ≤ res.samples ∧ res.samples ≤ (N : Int) ∧ res.samples ≤ (TEMP_BUF_LEN : Int) ∧
      res.tempBuf.length = TEMP_BUF_LEN ∧
      (∀ j, res.samples.toNat ≤ j → res.tempBuf[j]? = tempBuf[j]?) ∧
      res.inBuffer.length = inBuffer.length := by
  have hlen := keptIndices_length_le r 0 N
  have hg := desampleGuard_of_le N r hcap
  obtain ⟨tb', htb', hsame, h⟩ := Desample_ok inBuffer tempBuf N r hr hg hN (by omega)
  refine ⟨hg, _, h, ?_, ?_, ?_, ?_, ?_, ?_⟩
  · exact Int.ofNat_nonneg _
  · exact Int.ofNat_le.2 hlen
  · exact Int.ofNat_le.2 (hlen.trans hcap)
  · exact htb'.trans htb
  · intro j hj
    exact hsame j (by simpa using hj)
  · simp only [List.length_append, List.length_map, List.length_drop]
    omega

theorem Desample_safe_up_to_capacity_witness :
    desampleGuard 10240 2 = true ∧
    ∃ res, Desample (List.replicate 10240 7) 10240 2 (List.replicate 10240 0) = .ok res ∧
      0 ≤ res.samples ∧ res.samples ≤ 10240 ∧ res.samples ≤ (TEMP_BUF_LEN : Int) ∧
      res.tempBuf.length = TEMP_BUF_LEN ∧
      (∀ j, res.samples.toNat ≤ j → res.tempBuf[j]? = (List.replicate 10240 0)[j]?) ∧
      res.inBuffer.length = 10240 := by
  have h := Desample_safe_up_to_capacity (List.replicate 10240 7) (List.replicate 10240 0)
    10240 2 (by decide) (by rw [List.length_replicate]) (by decide)
    (by rw [List.length_replicate]; rfl)
  rw [List.length_replicate] at h
  exact h

/-- C5: Finalize correctness. A recorder started successfully from Idle, then
given any sequence of `writeAudioData` calls with non-negative counts that add
up to `n` samples, `36 + 2 * n` representable in 32 bits, then stopped, leaves a
file whose first 44 bytes are the header with `dataSize = 2 * n` and
`chunkSize = 36 + 2 * n`; these are the little-endian values at the byte
offsets 40 and 4 of the file. -/
theorem stopRecording_header_sizes (w : World) (env : StartEnv) (userID : Int)
    (calls : List (List Int × Int)) (n : Nat)
    (hidle : isRecording w = false)
    (hstart : (startRecording w env userID).1 = true)
    (hcalls : ∀ c ∈ calls, 0 ≤ c.2)
    (hn : (calls.map (fun c => c.2)).sum = (n : Int))
    (hrep : 36 + 2 * n < 2 ^ 32) :
    ∃ bytes,
      (stopRecording (writeAll (startRecording w env userID).2 calls)).disk
        (recordingPath userID env.timestamp) = some bytes ∧
      bytes.take 44
        = (stopRecording (writeAll (startRecording w env userID).2 calls)).recorder.header.bytes ∧
      (stopRecording (writeAll (startRecording w env userID).2 calls)).recorder.header.dataSize
        = 2 * n ∧
      (stopRecording (writeAll (startRecording w env userID).2 calls)).recorder.header.chunkSize
        = 36 + 2 * n ∧
      readLE32 bytes 40 = 2 * n ∧ readLE32 bytes 4 = 36 + 2 * n := by
  obtain ⟨s1, s2, _⟩ := startRecording_ok w env userID hidle hstart
  obtain ⟨t1, t2, _⟩ := writeAll_inv _ calls _ _ _ hcalls s1
  obtain ⟨u1, u2, _⟩ := stopRecording_inv _ _ _ _ t1
  have hsum : (calls.map (fun c => c.2.toNat)).sum = n := by
    have := sum_toNat_of_nonneg calls hcalls
    rw [hn] at this
    exact_mod_cast this
  have hsw : (writeAll (startRecording w env userID).2 calls).recorder.samplesWritten = n := by
    rw [t1.2.2.2.2.2.2, hsum, Nat.zero_add]
    omega
  rw [t2, s2] at u1
  rw [hsw] at u1 u2
  have hd : n * 2 % 2 ^ 32 = 2 * n := by omega
  have hc : (36 + 2 * n) % 2 ^ 32 = 36 + 2 * n := by omega
  rw [hd] at u1 u2
  refine ⟨_, u1, ?_, ?_, ?_, ?_, ?_⟩
  · rw [u2, List.take_left' (WAVHeader.length_bytes _)]
  · rw [u2]
    rfl
  · rw [u2]
    exact hc
  · rw [WAVHeader.readLE32_dataSize]
    show (2 * n) % 2 ^ 32 = 2 * n
    omega
  · rw [WAVHeader.readLE32_chunkSize]
    show (36 + 2 * n) % 2 ^ 32 % 2 ^ 32 = 36 + 2 * n
    omega

theorem stopRecording_header_sizes_witness :
    ∃ bytes,
      (stopRecording (writeAll (startRecording ⟨VoiceRecorder.new 0 0, fun _ => none⟩
        ⟨"20240101_120000", true, true⟩ 42).2 [([1, -2, 3], 3), ([5], 1)])).disk
        (recordingPath 42 "20240101_120000") = some bytes ∧
      bytes.take 44
        = (stopRecording (writeAll (startRecording ⟨VoiceRecorder.new 0 0, fun _ => none⟩
            ⟨"20240101_120000", true, true⟩ 42).2
            [([1, -2, 3], 3), ([5], 1)])).recorder.header.bytes ∧
      (stopRecording (writeAll (startRecording ⟨VoiceRecorder.new 0 0, fun _ => none⟩
        ⟨"20240101_120000", true, true⟩ 42).2
        [([1, -2, 3], 3), ([5], 1)])).recorder.header.dataSize = 2 * 4 ∧
      (stopRecording (writeAll (startRecording ⟨VoiceRecorder.new 0 0, fun _ => none⟩
        ⟨"20240101_120000", true, true⟩ 42).2
        [([1, -2, 3], 3), ([5], 1)])).recorder.header.chunkSize = 36 + 2 * 4 ∧
      readLE32 bytes 40 = 2 * 4 ∧ readLE32 bytes 4 = 36 + 2 * 4 :=
  stopRecording_header_sizes ⟨VoiceRecorder.new 0 0, fun _ => none⟩
    ⟨"20240101_120000", true, true⟩ 42 [([1, -2, 3], 3), ([5], 1)] 4
    rfl rfl (by decide) (by decide) (by decide)

/-- C6: Recording round trip. For every sequence of `writeAudioData` calls
(counts non-negative and within their buffers, samples 16-bit) made between a
successful `startRecording` from Idle and `stopRecording`, the final file is the
44-byte header followed by exactly the little-endian 2-byte encodings of the
written samples, in call order and input order; decoding the bytes from offset
44 on as little-endian 16-bit values gives back exactly the recorded samples;
and rewriting the header left every byte from offset 44 on as it was. -/
theorem recording_round_trip (w : World) (env : StartEnv) (userID : Int)
    (calls : List (List Int × Int))
    (hidle : isRecording w = false)
    (hstart : (startRecording w env userID).1 = true)
    (hcalls : ∀ c ∈ calls, 0 ≤ c.2 ∧ c.2 ≤ c.1.length)
    (h16 : ∀ c ∈ calls, ∀ s ∈ c.1, -32768 ≤ s ∧ s ≤ 32767) :
    ∃ bytes before,
      (stopRecording (writeAll (startRecording w env userID).2 calls)).disk
        (recordingPath userID env.timestamp) = some bytes ∧
      (writeAll (startRecording w env userID).2 calls).disk
        (recordingPath userID env.timestamp) = some before ∧
      bytes = (stopRecording (writeAll (startRecording w env userID).2 calls)).recorder.header.bytes
        ++ (calls.flatMap (fun c => c.1.take c.2.toNat)).flatMap int16Bytes ∧
      bytes.length = 44 + 2 * (calls.flatMap (fun c => c.1.take c.2.toNat)).length ∧
      decodeInt16s (bytes.drop 44) = calls.flatMap (fun c => c.1.take c.2.toNat) ∧
      bytes.drop 44 = before.drop 44 := by
  obtain ⟨s1, s2, _⟩ := startRecording_ok w env userID hidle hstart
  obtain ⟨t1, t2, _⟩ := writeAll_inv _ calls _ _ _ (fun c hc => (hcalls c hc).1) s1
  obtain ⟨u1, u2, _⟩ := stopRecording_inv _ _ _ _ t1
  have hb := t1.2.2.2.2.2.1
  rw [t2, s2] at u1 hb
  rw [List.nil_append, flatMap_sampleBytes] at u1 hb
  have hrange : ∀ s ∈ calls.flatMap (fun c => c.1.take c.2.toNat),
      -32768 ≤ s ∧ s ≤ 32767 := by
    intro s hs
    rw [List.mem_flatMap] at hs
    obtain ⟨c, hc, hsc⟩ := hs
    exact h16 c hc s (List.mem_of_mem_take hsc)
  refine ⟨_, _, u1, hb, ?_, ?_, ?_, ?_⟩
  · rw [u2]
  · rw [List.length_append, WAVHeader.length_bytes, length_flatMap_int16Bytes]
  · rw [List.drop_left' (WAVHeader.length_bytes _), decodeInt16s_flatMap _ hrange]
  · rw [List.drop_left' (WAVHeader.length_bytes _), List.drop_left' (WAVHeader.length_bytes _)]

theorem recording_round_trip_witness :
    ∃ bytes before,
      (stopRecording (writeAll (startRecording ⟨VoiceRecorder.new 0 0, fun _ => none⟩
        ⟨"20240101_120000", true, true⟩ 42).2 [([1, -2, 3], 2), ([-32768, 32767], 2)])).disk
        (recordingPath 42 "20240101_120000") = some bytes ∧
      (writeAll (startRecording ⟨VoiceRecorder.new 0 0, fun _ => none⟩
        ⟨"20240101_120000", true, true⟩ 42).2 [([1, -2, 3], 2), ([-32768, 32767], 2)]).disk
        (recordingPath 42 "20240101_120000") = some before ∧
      bytes.length = 44 + 2 * 4 ∧
      decodeInt16s (bytes.drop 44) = [1, -2, -32768, 32767] ∧
      bytes.drop 44 = before.drop 44 := by
  obtain ⟨bytes, before, h1, h2, _, h4, h5, h6⟩ := recording_round_trip
    ⟨VoiceRecorder.new 0 0, fun _ => none⟩ ⟨"20240101_120000", true, true⟩ 42
    [([1, -2, 3], 2), ([-32768, 32767], 2)] rfl rfl (by decide) (by decide)
  exact ⟨bytes, before, h1, h2, h4, h5, h6⟩


theorem crushSample_one_one (x : Nat) (hx : x < 65536) : crushSample x 1 1 = .ok x := by
  have h := crushSample_natCast x 1 1 (by omega) (by decide)
    (by rw [Nat.div_one, Nat.mul_one, Nat.mul_one]; omega)
  rw [Nat.div_one, Nat.mul_one, Nat.mul_one] at h
  exact_mod_cast h

/-- C7: BitCrush with `quant = 1` and `gainFactor = 1` is the identity: for
every buffer of 16-bit sample values and every count `N` within the buffer, the
call returns and leaves the buffer as it was. -/
theorem BitCrush_one_one_identity (buf : List Nat) (N : Nat) (hN : N ≤ buf.length)
    (h16 : ∀ x ∈ buf, x < 65536) :
    BitCrush buf (N : Int) 1 1 = .ok buf := by
  have h := BitCrush_eq_map buf N 1 1 id hN
    (fun x hx => crushSample_one_one x (h16 x (List.mem_of_mem_take hx)))
  rw [h, List.map_id, List.take_append_drop]

theorem BitCrush_one_one_identity_witness :
    BitCrush [0, 1, 32767, 32768, 65535] 5 1 1 = .ok [0, 1, 32767, 32768, 65535] :=
  BitCrush_one_one_identity [0, 1, 32767, 32768, 65535] 5 (by decide) (by decide)

/-- C8: BitCrush's per-sample formula. For every buffer, integer `quant = q ≥ 1`
and integer gain `g` (positive or zero), the call returns a buffer of the same
length in which each of the first `N` samples `x` (the stored 16-bit value,
read as unsigned) with `x / q * q * g` in the 16-bit range has been rewritten
to `x / q * q * g`, where `/` discards the fraction, whatever the other samples
are; the entries from `N` on are unchanged. With `g = 1` the new value is the
largest multiple of `q` not exceeding `x`. -/
theorem BitCrush_per_sample_formula (buf : List Nat) (N q g : Nat) (hN : N ≤ buf.length)
    (hq : 1 ≤ q) :
    (∀ x, x < 65536 → x / q * q * g < 65536 →
      crushSample x (q : ℚ) (g : ℚ) = .ok (x / q * q * g)) ∧
    (∃ out, BitCrush buf (N : Int) (q : ℚ) (g : ℚ) = .ok out ∧
      out.length = buf.length ∧
      (∀ i x, i < N → buf[i]? = some x → x < 65536 → x / q * q * g < 65536 →
        out[i]? = some (x / q * q * g)) ∧
      (∀ i, N ≤ i → out[i]? = buf[i]?)) ∧
    (g = 1 → ∀ x, q ∣ x / q * q * g ∧ x / q * q * g ≤ x ∧
      ∀ z, q ∣ z → z ≤ x → z ≤ x / q * q * g) := by
  refine ⟨fun x hx hxr => crushSample_natCast x q g (by omega) hq (by omega), ?_, ?_⟩
  · refine ⟨_, BitCrush_eq_map buf N q g
      (fun x => (crushSample x (q : ℚ) (g : ℚ)).toOption.getD 0) hN
      (fun x _ => crushSample_ok x q g), ?_, ?_, ?_⟩
    · simp only [List.length_append, List.length_map, List.length_take, List.length_drop]
      omega
    · intro i x hi hix hx hxr
      rw [List.getElem?_append_left (by simp; omega), List.getElem?_map,
        List.getElem?_take_of_lt hi, hix, Option.map_some',
        crushSample_natCast x q g (by omega) hq (by omega)]
      rfl
    · intro i hi
      rw [List.getElem?_append_right (by simp; omega)]
      simp only [List.length_map, List.length_take, List.getElem?_drop]
      congr 1
      omega
  · intro hg1 x
    subst hg1
    rw [Nat.mul_one]
    refine ⟨Dvd.intro_left _ rfl, Nat.div_mul_le_self x q, ?_⟩
    rintro z ⟨c, rfl⟩ hz
    have hc : c ≤ x / q := (Nat.le_div_iff_mul_le hq).2 (by rw [Nat.mul_comm]; exact hz)
    calc q * c = c * q := Nat.mul_comm q c
      _ ≤ x / q * q := Nat.mul_le_mul_right q hc

theorem BitCrush_per_sample_formula_witness :
    ∃ out, BitCrush [40000, 5, 32768] 3 1 2 = .ok out ∧
      out.length = 3 ∧ out[1]? = some 10 := by
  obtain ⟨_, ⟨out, h1, h2, h3, _⟩, _⟩ := BitCrush_per_sample_formula
    [40000, 5, 32768] 3 1 2 (by decide) (by decide)
  refine ⟨out, ?_, h2, ?_⟩
  · exact_mod_cast h1
  · exact h3 1 5 (by decide) rfl (by decide) (by decide)

/-- C9, as stated, fails: with `quant = 20000` and gain 1 the buffer
`[0, 20000, 40000, 60000]` is returned unchanged, four distinct values, while
`65536 / 20000 = 3.2768` rounded to the nearest integer is 3. -/
theorem BitCrush_levels_exceed_rounded_quotient :
    BitCrush [0, 20000, 40000, 60000] 4 20000 1 = .ok [0, 20000, 40000, 60000] ∧
    (2 * 65536 + 20000) / (2 * 20000) = 3 ∧
    [0, 20000, 40000, 60000].dedup.length = 4 := by
  refine ⟨?_, by decide, by decide⟩
  have h := BitCrush_eq_map [0, 20000, 40000, 60000] 4 20000 1 (fun x => x / 20000 * 20000 * 1)
    (by decide) (fun x hx => by
      have hx' : x < 65536 ∧ x / 20000 * 20000 * 1 < 65536 := by
        revert x
        decide
      exact_mod_cast crushSample_natCast x 20000 1 hx'.1 (by decide) hx'.2)
  exact_mod_cast h

/-- C9, amended: for integer `quant = q > 1`, gain 1 and a buffer of 16-bit
sample values, the samples written by `BitCrush` take at most
`⌈65536 / q⌉ = 65535 / q + 1` distinct values. -/
theorem BitCrush_distinct_levels_le (buf : List Nat) (N q : Nat) (hN : N ≤ buf.length)
    (hq : 1 < q) (h16 : ∀ x ∈ buf, x < 65536) :
    ∃ out, BitCrush buf (N : Int) (q : ℚ) 1 = .ok out ∧
      (out.take N).dedup.length ≤ 65535 / q + 1 := by
  have hq0 : 0 < q := by omega
  have h := BitCrush_eq_map buf N q ((1 : ℕ) : ℚ) (fun x => x / q * q * 1) hN
    (fun x hx => crushSample_natCast x q 1
      (by have := h16 x (List.mem_of_mem_take hx); omega) hq0
      (by
        have := h16 x (List.mem_of_mem_take hx)
        have := Nat.div_mul_le_self x q
        omega))
  rw [Nat.cast_one] at h
  refine ⟨_, h, ?_⟩
  rw [List.take_left' (by simp; omega), ← List.card_toFinset]
  calc ((buf.take N).map (fun x => x / q * q * 1)).toFinset.card
      ≤ ((Finset.range (65535 / q + 1)).image (fun c => c * q)).card := by
        apply Finset.card_le_card
        intro y hy
        rw [List.mem_toFinset, List.mem_map] at hy
        obtain ⟨x, hx, rfl⟩ := hy
        rw [Finset.mem_image]
        refine ⟨x / q, ?_, by rw [Nat.mul_one]⟩
        rw [Finset.mem_range, Nat.lt_succ_iff]
        have := h16 x (List.mem_of_mem_take hx)
        exact Nat.div_le_div_right (by omega)
    _ ≤ (Finset.range (65535 / q + 1)).card := Finset.card_image_le
    _ = 65535 / q + 1 := Finset.card_range _

theorem BitCrush_distinct_levels_le_witness :
    ∃ out, BitCrush [0, 20000, 40000, 60000] 4 20000 1 = .ok out ∧
      (out.take 4).dedup.length ≤ 65535 / 20000 + 1 := by
  obtain ⟨out, h1, h2⟩ := BitCrush_distinct_levels_le [0, 20000, 40000, 60000] 4 20000
    (by decide) (by decide) (by decide)
  exact ⟨out, by exact_mod_cast h1, h2⟩

/-- C10: Header invariant. Every constructed `WAVHeader` has
`byteRate = sampleRate * numChannels * bitsPerSample / 8` and
`blockAlign = numChannels * bitsPerSample / 8`, 48000 and 2 for the defaults,
whatever the storage held in the two size fields; and `updateSizes` with any
`audioDataSize` leaves both equalities as they were, on every header. -/
theorem WAVHeader_derived_fields_invariant (chunkSize0 dataSize0 audioDataSize : Nat)
    (h : WAVHeader) :
    (WAVHeader.new chunkSize0 dataSize0).derivedFieldsConsistent ∧
    (WAVHeader.new chunkSize0 dataSize0).byteRate = 48000 ∧
    (WAVHeader.new chunkSize0 dataSize0).blockAlign = 2 ∧
    ((WAVHeader.new chunkSize0 dataSize0).updateSizes audioDataSize).derivedFieldsConsistent ∧
    ((h.updateSizes audioDataSize).derivedFieldsConsistent ↔ h.derivedFieldsConsistent) ∧
    (h.updateSizes audioDataSize).byteRate = h.byteRate ∧
    (h.updateSizes audioDataSize).blockAlign = h.blockAlign := by
  exact ⟨WAVHeader.new_consistent _ _, WAVHeader.new_byteRate _ _, WAVHeader.new_blockAlign _ _,
    WAVHeader.new_consistent _ _, Iff.rfl, rfl, rfl⟩

/-- C11: Canonical header layout. The members of `WAVHeader` sit at the offsets
0, 4, 8, 12, 16, 20, 22, 24, 28, 32, 34, 36, 40 and fill 44 bytes, so the layout
rule inserts no padding. For every reachable recorder the bytes of its header
member are, in this order, 'RIFF', chunkSize, 'WAVE', 'fmt ', fmtSize = 16,
audioFormat = 1, numChannels = 1, sampleRate = 24000, byteRate = 48000,
blockAlign = 2, bitsPerSample = 16, 'data', dataSize, every number
little-endian, 44 bytes in all; and a successful `startRecording` from Idle
makes exactly these bytes the contents of the new file. -/
theorem WAVHeader_canonical_layout (w : World) (env : StartEnv) (userID : Int)
    (hreach : Reachable w) :
    memberOffsets WAVHEADER_MEMBERS 0 = [0, 4, 8, 12, 16, 20, 22, 24, 28, 32, 34, 36, 40] ∧
    (WAVHEADER_MEMBERS.map Prod.fst).sum = SIZEOF_WAVHEADER ∧
    w.recorder.header.bytes
      = [82, 73, 70, 70] ++ le32 w.recorder.header.chunkSize ++ [87, 65, 86, 69]
        ++ [102, 109, 116, 32] ++ le32 16 ++ le16 1 ++ le16 1 ++ le32 24000 ++ le32 48000
        ++ le16 2 ++ le16 16 ++ [100, 97, 116, 97] ++ le32 w.recorder.header.dataSize ∧
    w.recorder.header.bytes.length = SIZEOF_WAVHEADER ∧
    (isRecording w = false → (startRecording w env userID).1 = true →
      (startRecording w env userID).2.disk (recordingPath userID env.timestamp)
        = some w.recorder.header.bytes) := by
  obtain ⟨c, d, hcd⟩ := hreach.header_eq_new
  refine ⟨by decide, by decide, ?_, WAVHeader.length_bytes _, ?_⟩
  · rw [hcd, WAVHeader.new_bytes]
    rfl
  · intro hidle hstart
    obtain ⟨hinv, hname, _⟩ := startRecording_ok w env userID hidle hstart
    have := hinv.2.2.2.2.2.1
    rw [hname, List.append_nil] at this
    exact this

theorem WAVHeader_canonical_layout_witness :
    (startRecording ⟨VoiceRecorder.new 0 0, fun _ => none⟩
      ⟨"20240101_120000", true, true⟩ 42).2.disk (recordingPath 42 "20240101_120000")
      = some ([82, 73, 70, 70] ++ le32 0 ++ [87, 65, 86, 69]
        ++ [102, 109, 116, 32] ++ le32 16 ++ le16 1 ++ le16 1 ++ le32 24000 ++ le32 48000
        ++ le16 2 ++ le16 16 ++ [100, 97, 116, 97] ++ le32 0) := by
  obtain ⟨_, _, h3, _, h5⟩ := WAVHeader_canonical_layout ⟨VoiceRecorder.new 0 0, fun _ => none⟩
    ⟨"20240101_120000", true, true⟩ 42 (Reachable.fresh 0 0 _)
  rw [h5 rfl rfl, h3]
  rfl

/-- C12, at a recorder that has completed a session of four samples: the second
`startRecording` succeeds and resets the counter, but the header it writes as
the first bytes of the new file still carries the sizes of the first session,
`dataSize = 8` and `chunkSize = 44`, not zero. -/
theorem startRecording_writes_stale_sizes :
    (startRecording (stopRecording (writeAll (startRecording
        ⟨VoiceRecorder.new 0 0, fun _ => none⟩ ⟨"20240101_120000", true, true⟩ 42).2
        [([1, -2, 3, 5], 4)])) ⟨"20240101_120500", true, true⟩ 42).1 = true ∧
    (startRecording (stopRecording (writeAll (startRecording
        ⟨VoiceRecorder.new 0 0, fun _ => none⟩ ⟨"20240101_120000", true, true⟩ 42).2
        [([1, -2, 3, 5], 4)])) ⟨"20240101_120500", true, true⟩ 42).2.recorder.samplesWritten
      = 0 ∧
    ∃ bytes,
      (startRecording (stopRecording (writeAll (startRecording
        ⟨VoiceRecorder.new 0 0, fun _ => none⟩ ⟨"20240101_120000", true, true⟩ 42).2
        [([1, -2, 3, 5], 4)])) ⟨"20240101_120500", true, true⟩ 42).2.disk
        (recordingPath 42 "20240101_120500") = some bytes ∧
      bytes.length = 44 ∧ readLE32 bytes 40 = 8 ∧ readLE32 bytes 4 = 44 := by
  obtain ⟨s1, _, s3⟩ := startRecording_ok ⟨VoiceRecorder.new 0 0, fun _ => none⟩
    ⟨"20240101_120000", true, true⟩ 42 rfl rfl
  obtain ⟨t1, _, t3⟩ := writeAll_inv _ [([1, -2, 3, 5], 4)] _ _ _ (by decide) s1
  obtain ⟨_, u2, _, u4, _⟩ := stopRecording_inv _ _ _ _ t1
  have hsw := t1.2.2.2.2.2.2
  rw [hsw, t3, s3] at u2
  have hfst := startRecording_fst _ ⟨"20240101_120500", true, true⟩ 42 u4
  obtain ⟨v1, v2, _⟩ := startRecording_ok _ ⟨"20240101_120500", true, true⟩ 42 u4 hfst
  have hdisk := v1.2.2.2.2.2.1
  rw [v2, List.append_nil, u2] at hdisk
  refine ⟨hfst, ?_, _, hdisk, WAVHeader.length_bytes _, ?_, ?_⟩
  · rw [v1.2.2.2.2.2.2]
    exact Nat.zero_mod _
  · have := WAVHeader.readLE32_dataSize
      ((VoiceRecorder.new 0 0).header.updateSizes
        ((0 + (List.map (fun c => c.2.toNat) [(([1, -2, 3, 5] : List Int), (4 : Int))]).sum)
          % 2 ^ 32 * 2 % 2 ^ 32)) []
    rw [List.append_nil] at this
    rw [this]
    decide
  · have := WAVHeader.readLE32_chunkSize
      ((VoiceRecorder.new 0 0).header.updateSizes
        ((0 + (List.map (fun c => c.2.toNat) [(([1, -2, 3, 5] : List Int), (4 : Int))]).sum)
          % 2 ^ 32 * 2 % 2 ^ 32)) []
    rw [List.append_nil] at this
    rw [this]
    decide

/-- C13: `stopRecording` is idempotent. For every recorder state a second
`stopRecording` changes nothing: the file system and the recorder (Idle, header
fields, counter) are those left by the first call; the recorder is Idle after
the call, with counter 0 when it was Recording before; and a `stopRecording` on
an Idle recorder changes nothing at all. -/
theorem stopRecording_idempotent (w : World) :
    stopRecording (stopRecording w) = stopRecording w ∧
    isRecording (stopRecording w) = false ∧
    (isRecording w = true → (stopRecording w).recorder.samplesWritten = 0) ∧
    (isRecording w = false → stopRecording w = w) := by
  refine ⟨stopRecording_of_idle _ (isRecording_stopRecording w), isRecording_stopRecording w,
    ?_, stopRecording_of_idle w⟩
  intro h
  unfold isRecording at h
  simp [stopRecording, h]

theorem stopRecording_idempotent_witness :
    stopRecording (stopRecording (startRecording ⟨VoiceRecorder.new 0 0, fun _ => none⟩
      ⟨"20240101_120000", true, true⟩ 42).2)
      = stopRecording (startRecording ⟨VoiceRecorder.new 0 0, fun _ => none⟩
        ⟨"20240101_120000", true, true⟩ 42).2 ∧
    (stopRecording (startRecording ⟨VoiceRecorder.new 0 0, fun _ => none⟩
      ⟨"20240101_120000", true, true⟩ 42).2).recorder.samplesWritten = 0 ∧
    stopRecording ⟨VoiceRecorder.new 0 0, fun _ => none⟩
      = ⟨VoiceRecorder.new 0 0, fun _ => none⟩ :=
  ⟨(stopRecording_idempotent _).1, (stopRecording_idempotent _).2.2.1 rfl,
    (stopRecording_idempotent ⟨VoiceRecorder.new 0 0, fun _ => none⟩).2.2.2 rfl⟩

/-- C14: `writeAudioData` while Idle is a silent no-op. For every Idle recorder,
every buffer and every count the call returns the state it was given: no file
changes, the counter, the header, the stream flags and the Idle state are as
before. -/
theorem writeAudioData_idle_noop (w : World) (samples : List Int) (numSamples : Int)
    (hidle : isRecording w = false) :
    writeAudioData w samples numSamples = w ∧
    (writeAudioData w samples numSamples).disk = w.disk ∧
    (writeAudioData w samples numSamples).recorder = w.recorder ∧
    isRecording (writeAudioData w samples numSamples) = false := by
  unfold isRecording at hidle
  have h : writeAudioData w samples numSamples = w := by
    simp [writeAudioData, hidle]
  rw [h]
  exact ⟨rfl, rfl, rfl, hidle⟩

theorem writeAudioData_idle_noop_witness :
    writeAudioData ⟨VoiceRecorder.new 0 0, fun _ => none⟩ [1, 2, 3] 3
      = ⟨VoiceRecorder.new 0 0, fun _ => none⟩ :=
  (writeAudioData_idle_noop ⟨VoiceRecorder.new 0 0, fun _ => none⟩ [1, 2, 3] 3 rfl).1


/-- C15: Output paths never collide for different identifiers. The file name
that `startRecording` builds is
`"garrysmod/recordings/user_" ++ decimal(userID) ++ "_" ++ timestamp ++ ".wav"`,
and it determines both the user ID and the timestamp string: two paths are
equal only for equal user IDs and equal timestamps. In particular, for one
timestamp and user IDs `a ≠ b` the two paths differ. -/
theorem recordingPath_injective (a b : Int) (s t : String) (w : World) (env : StartEnv) :
    (startRecording w env a).2.recorder.filename
      = "garrysmod/recordings/user_" ++ toString a ++ "_" ++ env.timestamp ++ ".wav" ∧
    (recordingPath a s = recordingPath b t ↔ a = b ∧ s = t) ∧
    (a ≠ b → recordingPath a s ≠ recordingPath b s) := by
  refine ⟨startRecording_filename w env a, ⟨recordingPath_inj a b s t, ?_⟩, ?_⟩
  · rintro ⟨rfl, rfl⟩
    rfl
  · intro hne h
    exact hne (recordingPath_inj a b s s h).1

theorem recordingPath_injective_witness :
    recordingPath 1 "20240101_120000" ≠ recordingPath 12 "20240101_120000" ∧
    recordingPath (-7) "20240101_120000" ≠ recordingPath 7 "20240101_120000" :=
  ⟨(recordingPath_injective 1 12 "20240101_120000" "20240101_120000"
      ⟨VoiceRecorder.new 0 0, fun _ => none⟩ ⟨"20240101_120000", true, true⟩).2.2 (by decide),
    (recordingPath_injective (-7) 7 "20240101_120000" "20240101_120000"
      ⟨VoiceRecorder.new 0 0, fun _ => none⟩ ⟨"20240101_120000", true, true⟩).2.2 (by decide)⟩

/-- C16: Desample's output length. For `N` samples within the scratch capacity
and `desampleRate = r ≥ 1` the call returns with `samples = N - ⌈N / r⌉`
(`⌈N / r⌉ = (N + r - 1) / r`), which never exceeds `N` and is strictly smaller
than `N` whenever `N ≥ 1`. -/
theorem Desample_output_length (inBuffer tempBuf : List Nat) (N r : Nat)
    (hr : 1 ≤ r) (hN : N ≤ inBuffer.length) (hfit : N ≤ TEMP_BUF_LEN)
    (htb : tempBuf.length = TEMP_BUF_LEN) :
    ∃ res, Desample inBuffer (N : Int) (r : Int) tempBuf = .ok res ∧
      res.samples = ((N - (N + r - 1) / r : Nat) : Int) ∧
      res.samples ≤ (N : Int) ∧
      (1 ≤ N → res.samples < (N : Int)) := by
  have hlen := keptIndices_length r N hr
  have hle := keptIndices_length_le r 0 N
  obtain ⟨tb', _, _, h⟩ := Desample_ok inBuffer tempBuf N r hr (desampleGuard_of_le N r hfit) hN
    (by omega)
  refine ⟨_, h, ?_, ?_, ?_⟩
  · show ((keptIndices r 0 N).length : Int) = _
    rw [hlen]
  · exact Int.ofNat_le.2 hle
  · intro h1
    have hpos : 1 ≤ (N + r - 1) / r := by
      rw [Nat.le_div_iff_mul_le (by omega)]
      omega
    have hc := ceilDiv_le N r hr
    show ((keptIndices r 0 N).length : Int) < _
    rw [hlen]
    omega

theorem Desample_output_length_witness :
    ∃ res, Desample [10, 20, 30, 40, 50, 60, 70] 7 3 (List.replicate TEMP_BUF_LEN 0) = .ok res ∧
      res.samples = 4 ∧ res.samples < 7 := by
  obtain ⟨res, h1, h2, _, h4⟩ := Desample_output_length [10, 20, 30, 40, 50, 60, 70]
    (List.replicate TEMP_BUF_LEN 0) 7 3 (by decide) (by decide) (by decide)
    (List.length_replicate _ _)
  exact ⟨res, h1, h2, h4 (by decide)⟩

/-- C17: `startRecording` failure leaves the session Idle. For every Idle
recorder and user ID, when creating the directory fails or the file cannot be
opened, `startRecording` returns `false` (it returns: the exception of the
directory creation is caught), `isRecording()` is false afterwards, and the
counter, the header and the files are unchanged. -/
theorem startRecording_failure_stays_idle (w : World) (env : StartEnv) (userID : Int)
    (hidle : isRecording w = false) (hfail : env.mkdirOk = false ∨ env.openOk = false) :
    (startRecording w env userID).1 = false ∧
    isRecording (startRecording w env userID).2 = false ∧
    (startRecording w env userID).2.recorder.samplesWritten = w.recorder.samplesWritten ∧
    (startRecording w env userID).2.recorder.header = w.recorder.header ∧
    (startRecording w env userID).2.disk = w.disk := by
  have hb : (env.mkdirOk && env.openOk) = false := by
    rcases hfail with h | h <;> simp [h]
  refine ⟨by rw [startRecording_fst w env userID hidle, hb],
    by rw [isRecording_startRecording w env userID hidle, hb], ?_,
    startRecording_header w env userID, ?_⟩
  · obtain ⟨ts, mk, op⟩ := env
    unfold isRecording at hidle
    cases mk <;> cases op <;> simp_all [startRecording, OfStream.open]
  · obtain ⟨ts, mk, op⟩ := env
    unfold isRecording at hidle
    cases mk <;> cases op <;> simp_all [startRecording, OfStream.open]

theorem startRecording_failure_stays_idle_witness :
    (startRecording ⟨VoiceRecorder.new 0 0, fun _ => none⟩
      ⟨"20240101_120000", true, false⟩ 42).1 = false ∧
    isRecording (startRecording ⟨VoiceRecorder.new 0 0, fun _ => none⟩
      ⟨"20240101_120000", true, false⟩ 42).2 = false ∧
    (startRecording ⟨VoiceRecorder.new 0 0, fun _ => none⟩
      ⟨"20240101_120000", false, true⟩ 42).1 = false ∧
    isRecording (startRecording ⟨VoiceRecorder.new 0 0, fun _ => none⟩
      ⟨"20240101_120000", false, true⟩ 42).2 = false :=
  ⟨(startRecording_failure_stays_idle ⟨VoiceRecorder.new 0 0, fun _ => none⟩
      ⟨"20240101_120000", true, false⟩ 42 rfl (Or.inr rfl)).1,
    (startRecording_failure_stays_idle ⟨VoiceRecorder.new 0 0, fun _ => none⟩
      ⟨"20240101_120000", true, false⟩ 42 rfl (Or.inr rfl)).2.1,
    (startRecording_failure_stays_idle ⟨VoiceRecorder.new 0 0, fun _ => none⟩
      ⟨"20240101_120000", false, true⟩ 42 rfl (Or.inl rfl)).1,
    (startRecording_failure_stays_idle ⟨VoiceRecorder.new 0 0, fun _ => none⟩
      ⟨"20240101_120000", false, true⟩ 42 rfl (Or.inl rfl)).2.1⟩

/-- C18: Implicit finalize. Destroying a recorder that is still Recording, after
a successful start from Idle and writes with non-negative counts adding up to
`n` samples (`36 + 2 * n` representable in 32 bits), leaves what
`stopRecording` leaves: the stream is closed and the header at offset 0 of the
file carries `dataSize = 2 * n` and `chunkSize = 36 + 2 * n`. Destroying an Idle
recorder changes no file. -/
theorem destroy_finalizes (w idle : World) (env : StartEnv) (userID : Int)
    (calls : List (List Int × Int)) (n : Nat)
    (hidle : isRecording w = false)
    (hstart : (startRecording w env userID).1 = true)
    (hcalls : ∀ c ∈ calls, 0 ≤ c.2)
    (hn : (calls.map (fun c => c.2)).sum = (n : Int))
    (hrep : 36 + 2 * n < 2 ^ 32)
    (hidle' : isRecording idle = false) :
    isRecording (writeAll (startRecording w env userID).2 calls) = true ∧
    destroy (writeAll (startRecording w env userID).2 calls)
      = stopRecording (writeAll (startRecording w env userID).2 calls) ∧
    isRecording (destroy (writeAll (startRecording w env userID).2 calls)) = false ∧
    (∃ bytes,
      (destroy (writeAll (startRecording w env userID).2 calls)).disk
        (recordingPath userID env.timestamp) = some bytes ∧
      readLE32 bytes 40 = 2 * n ∧ readLE32 bytes 4 = 36 + 2 * n) ∧
    (destroy idle).disk = idle.disk ∧ destroy idle = idle := by
  obtain ⟨s1, s2, _⟩ := startRecording_ok w env userID hidle hstart
  obtain ⟨t1, t2, _⟩ := writeAll_inv _ calls _ _ _ hcalls s1
  obtain ⟨u1, _, _⟩ := stopRecording_inv _ _ _ _ t1
  have hsum : (calls.map (fun c => c.2.toNat)).sum = n := by
    have := sum_toNat_of_nonneg calls hcalls
    rw [hn] at this
    exact_mod_cast this
  have hsw : (writeAll (startRecording w env userID).2 calls).recorder.samplesWritten = n := by
    rw [t1.2.2.2.2.2.2, hsum, Nat.zero_add]
    omega
  rw [t2, s2, hsw] at u1
  have hd : n * 2 % 2 ^ 32 = 2 * n := by omega
  rw [hd] at u1
  refine ⟨t1.1, rfl, isRecording_stopRecording _, ⟨_, u1, ?_, ?_⟩, ?_, ?_⟩
  · rw [WAVHeader.readLE32_dataSize]
    show (2 * n) % 2 ^ 32 = 2 * n
    omega
  · rw [WAVHeader.readLE32_chunkSize]
    show (36 + 2 * n) % 2 ^ 32 % 2 ^ 32 = 36 + 2 * n
    omega
  · show (stopRecording idle).disk = idle.disk
    rw [stopRecording_of_idle idle hidle']
  · exact stopRecording_of_idle idle hidle'

theorem destroy_finalizes_witness :
    isRecording (destroy (writeAll (startRecording ⟨VoiceRecorder.new 0 0, fun _ => none⟩
      ⟨"20240101_120000", true, true⟩ 42).2 [([1, -2, 3], 3), ([5], 1)])) = false ∧
    (∃ bytes,
      (destroy (writeAll (startRecording ⟨VoiceRecorder.new 0 0, fun _ => none⟩
        ⟨"20240101_120000", true, true⟩ 42).2 [([1, -2, 3], 3), ([5], 1)])).disk
        (recordingPath 42 "20240101_120000") = some bytes ∧
      readLE32 bytes 40 = 8 ∧ readLE32 bytes 4 = 44) ∧
    destroy ⟨VoiceRecorder.new 0 0, fun _ => none⟩ = ⟨VoiceRecorder.new 0 0, fun _ => none⟩ := by
  obtain ⟨_, _, h3, h4, _, h6⟩ := destroy_finalizes ⟨VoiceRecorder.new 0 0, fun _ => none⟩
    ⟨VoiceRecorder.new 0 0, fun _ => none⟩ ⟨"20240101_120000", true, true⟩ 42
    [([1, -2, 3], 3), ([5], 1)] 4 rfl rfl (by decide) (by decide) (by decide) rfl
  exact ⟨h3, h4, h6⟩

/-- C20: BitCrush on signed samples rounds toward minus infinity. For
`quant = 2 ^ k` with `k ≤ 15` (the powers of two from 1 to 32768), gain 1, and
every signed 16-bit sample `s`, stored in two's complement and read by
`BitCrush` as unsigned, the rewritten sample read back as signed is
`2 ^ k * ⌊s / 2 ^ k⌋` (on `Int`, `/` with a positive divisor is the floor
quotient): a multiple of `quant` that is never greater than `s`. On a buffer of
such samples the first `N` entries become these values and the others are left
alone. -/
theorem BitCrush_signed_floor (buf : List Int) (N k : Nat) (hN : N ≤ buf.length)
    (hk : k ≤ 15) (h16 : ∀ s ∈ buf, -32768 ≤ s ∧ s ≤ 32767) :
    (∀ s : Int, -32768 ≤ s → s ≤ 32767 →
      ∃ y, crushSample (int16Bits s) ((2 ^ k : Nat) : ℚ) 1 = .ok y ∧
        int16OfBits y = 2 ^ k * (s / 2 ^ k) ∧
        (2 : Int) ^ k ∣ int16OfBits y ∧ int16OfBits y ≤ s) ∧
    ∃ out, BitCrush (buf.map int16Bits) (N : Int) ((2 ^ k : Nat) : ℚ) 1 = .ok out ∧
      (out.take N).map int16OfBits = (buf.take N).map (fun s => 2 ^ k * (s / 2 ^ k)) ∧
      out.drop N = (buf.map int16Bits).drop N := by
  have hq : 0 < 2 ^ k := Nat.pow_pos (by decide)
  have hsample : ∀ u, u < 65536 →
      crushSample u ((2 ^ k : Nat) : ℚ) 1 = .ok (u / 2 ^ k * 2 ^ k * 1) := by
    intro u hu
    have hle := Nat.div_mul_le_self u (2 ^ k)
    have := crushSample_natCast u (2 ^ k) 1 (by omega) hq (by omega)
    exact_mod_cast this
  constructor
  · intro s h1 h2
    obtain ⟨e1, e2⟩ := int16OfBits_quantised k hk s ⟨h1, h2⟩
    refine ⟨_, hsample _ (int16Bits_lt s), e1, ?_, ?_⟩
    · rw [e1]
      exact Dvd.intro _ rfl
    · rw [e1]
      exact e2
  · have h := BitCrush_eq_map (buf.map int16Bits) N ((2 ^ k : Nat) : ℚ) 1
      (fun u => u / 2 ^ k * 2 ^ k * 1) (by rw [List.length_map]; exact hN)
      (fun u hu => by
        obtain ⟨s, _, rfl⟩ := List.mem_map.1 (List.mem_of_mem_take hu)
        exact hsample _ (int16Bits_lt s))
    refine ⟨_, h, ?_, ?_⟩
    · rw [List.take_left' (by simp; omega), ← List.map_take, List.map_map, List.map_map]
      apply List.map_congr_left
      intro s hs
      exact (int16OfBits_quantised k hk s (h16 s (List.mem_of_mem_take hs))).1
    · rw [List.drop_left' (by simp; omega)]

theorem BitCrush_signed_floor_witness :
    ∃ out, BitCrush ([-1, -5, 7, -32768, 9].map int16Bits) 4 ((2 ^ 2 : Nat) : ℚ) 1 = .ok out ∧
      (out.take 4).map int16OfBits = [-4, -8, 4, -32768] ∧
      out.drop 4 = [9] := by
  obtain ⟨_, out, h1, h2, h3⟩ := BitCrush_signed_floor [-1, -5, 7, -32768, 9] 4 2
    (by decide) (by decide) (by decide)
  refine ⟨out, h1, ?_, ?_⟩
  · rw [h2]
    decide
  · rw [h3]
    decide

end AudioEffects
